import Mathlib

/-!
Verification of the OPS scheduler subsystem (`backend/apps/scheduler`).

This file gives a shallow embedding of the job runner
(`apps/scheduler/tasks.py`, `execute_job` and the per-type executors) and of
the DAG execution engine (`apps/scheduler/services.py`,
`DAGExecutionEngine`), and proves or refutes the specification claims about
them.

Modelling conventions:
* Python statuses are the literal strings of the source
  (`"success"`, `"failed"`, `"timeout"`, `"skipped"`, ...).
* Exceptions are an explicit inductive type; a fallible call returns
  `Except PyExc _`.
* The behaviour of an external action (how long the underlying call would
  take and whether it would succeed) is an oracle `ActionEnv` indexed by the
  attempt number.
* Celery's `@shared_task(bind=True, max_retries=3)` retry machinery is
  embedded directly: `self.request.retries` is the `retries` argument and
  `self.retry` re-invokes the body with `retries + 1` as long as
  `retries < max_retries`, otherwise it re-raises the original exception.
* `uuid.uuid4()` trace ids are modelled as a fresh counter: attempt `k` of a
  retry chain gets trace id `k`; distinct attempts get distinct trace ids.
-/

/-- Job action types (`Job.JOB_TYPE_CHOICES` in `apps/scheduler/models.py`). -/
inductive JobType
  | http
  | shell
  | sql
  | python
  deriving DecidableEq, Repr

/-- The fields of the `Job` model that the runner reads
(`apps/scheduler/models.py`). -/
structure Job where
  jobType : JobType
  retry_count : Nat
  retry_interval : Nat
  timeout : Nat
  alert_on_failure : Bool
  alert_on_timeout : Bool
  deriving DecidableEq, Repr

/-- The Python exceptions distinguished by `execute_job`'s handlers:
`subprocess.TimeoutExpired` is caught by the dedicated timeout handler;
`requests.exceptions.Timeout` (raised by `requests.request(..., timeout=...)`
inside `_execute_http_job`) and every other exception fall through to the
generic `except Exception` handler. -/
inductive PyExc
  | timeoutExpired
  | requestsTimeout
  | genericError
  deriving DecidableEq, Repr

/-- Observable behaviour of the underlying external operation of one attempt:
how long it would run, and whether it would succeed if allowed to finish. -/
structure ActionEnv where
  duration : Nat
  succeeds : Bool
  deriving DecidableEq, Repr

/-- One attempt's action dispatch (`tasks.py` lines 68-77 plus the four
`_execute_*_job` helpers):
* `_execute_http_job` passes `timeout=job.timeout` to `requests.request`;
  exceeding it raises `requests.exceptions.Timeout`, which is NOT
  `subprocess.TimeoutExpired`.
* `_execute_shell_job` passes `timeout=job.timeout` to `subprocess.run`;
  exceeding it raises `subprocess.TimeoutExpired`.
* `_execute_sql_job` and `_execute_python_job` never pass the timeout to the
  underlying call, so the deadline is not enforced there: the call simply
  runs to completion with its own outcome. -/
def runAction (job : Job) (a : ActionEnv) : Except PyExc Unit :=
  match job.jobType with
  | .http =>
      if job.timeout < a.duration then .error .requestsTimeout
      else if a.succeeds then .ok () else .error .genericError
  | .shell =>
      if job.timeout < a.duration then .error .timeoutExpired
      else if a.succeeds then .ok () else .error .genericError
  | .sql =>
      if a.succeeds then .ok () else .error .genericError
  | .python =>
      if a.succeeds then .ok () else .error .genericError

/-- One `JobLog` row (`apps/scheduler/models.py`), restricted to the fields
the claims are about.  `retry_count` is the value of `self.request.retries`
recorded at row creation; `alert` records which alert (if any) was scheduled
via `send_job_alert.delay` for this attempt. -/
structure JobAttempt where
  trace_id : Nat
  trigger_type : String
  retry_count : Nat
  status : String
  alert : Option String
  deriving DecidableEq, Repr

/-- The dictionary returned by `execute_job` (its `status` and
`error_msg`/`message` fields; message texts other than `"Job not found"` are
abbreviated). -/
structure RunResult where
  status : String
  error_msg : Option String
  deriving DecidableEq, Repr

/-- `@shared_task(bind=True, max_retries=3)` on `execute_job`. -/
def celeryMaxRetries : Nat := 3

/-- The body of `execute_job` (`tasks.py` lines 47-120) together with the
Celery retry loop.  Arguments: fuel (structural), `retries`
(= `self.request.retries`) and the fresh-trace-id counter.  Returns the list
of `JobLog` rows created by the whole chain and either the returned result
dictionary or the exception that propagated out of the task.

Faithful points: a generic exception is retried only while
`self.request.retries < job.retry_count` AND Celery's own
`max_retries = 3` is not exhausted — `self.retry(..., exc=e)` re-raises `e`
once `retries ≥ max_retries`; a `subprocess.TimeoutExpired` is terminal for
the attempt and never retried; every re-execution runs with the *same*
`trigger_type` argument and creates a new `JobLog` with a fresh trace id. -/
def runJobAttempts (job : Job) (env : Nat → ActionEnv) (trigger : String) :
    Nat → Nat → Nat → List JobAttempt × Except PyExc RunResult
  | 0, _, _ => ([], .error .genericError)
  | fuel+1, retries, trace =>
    match runAction job (env retries) with
    | .ok _ =>
        ([⟨trace, trigger, retries, "success", none⟩],
         .ok ⟨"success", none⟩)
    | .error .timeoutExpired =>
        ([⟨trace, trigger, retries, "timeout",
            if job.alert_on_timeout then some "timeout" else none⟩],
         .ok ⟨"timeout", some "timed out"⟩)
    | .error e =>
        if retries < job.retry_count then
          if retries < celeryMaxRetries then
            let rest := runJobAttempts job env trigger fuel (retries+1) (trace+1)
            (⟨trace, trigger, retries, "failed", none⟩ :: rest.1, rest.2)
          else
            ([⟨trace, trigger, retries, "failed", none⟩], .error e)
        else
          ([⟨trace, trigger, retries, "failed",
              if job.alert_on_failure then some "failure" else none⟩],
           .ok ⟨"failed", some "failed"⟩)

/-- Entry point of the task (`tasks.py` lines 31-35 and onwards): a missing
job returns `{'status': 'error', 'message': 'Job not found'}` before any
`JobLog` is created; otherwise the attempt chain starts at `retries = 0`. -/
def execute_job (jobOpt : Option Job) (env : Nat → ActionEnv)
    (trigger : String) : List JobAttempt × Except PyExc RunResult :=
  match jobOpt with
  | none => ([], .ok ⟨"error", some "Job not found"⟩)
  | some job => runJobAttempts job env trigger (celeryMaxRetries + 1) 0 0

/-- An action outcome that lands in the generic `except Exception` handler
(anything raised that is not `subprocess.TimeoutExpired`). -/
def isGenExc : Except PyExc Unit → Bool
  | .error .timeoutExpired => false
  | .error _ => true
  | .ok _ => false

/-- The job's action fails with a generic (non-`TimeoutExpired`) exception on
every attempt. -/
def AlwaysFails (job : Job) (env : Nat → ActionEnv) : Prop :=
  ∀ k, isGenExc (runAction job (env k)) = true

/-! ### Unfolding lemmas for one step of the retry chain -/

/-- A generic failure with retries left both at the job level and at the
Celery level produces one `failed` row and re-executes. -/
theorem runJobAttempts_step_retry (job : Job) (env : Nat → ActionEnv)
    (trigger : String) (fuel r t : Nat)
    (hg : isGenExc (runAction job (env r)) = true)
    (h1 : r < job.retry_count) (h2 : r < celeryMaxRetries) :
    (runJobAttempts job env trigger (fuel+1) r t).1 =
      ⟨t, trigger, r, "failed", none⟩ ::
        (runJobAttempts job env trigger fuel (r+1) (t+1)).1 := by
  cases hc : runAction job (env r) with
  | ok u => simp [hc, isGenExc] at hg
  | error e =>
    cases e with
    | timeoutExpired => simp [hc, isGenExc] at hg
    | requestsTimeout => simp [runJobAttempts, hc, h1, h2]
    | genericError => simp [runJobAttempts, hc, h1, h2]

/-- A generic failure with job-level retries left but Celery's
`max_retries` exhausted: `self.retry(..., exc=e)` re-raises, leaving a
single `failed` row and no alert. -/
theorem runJobAttempts_step_raise (job : Job) (env : Nat → ActionEnv)
    (trigger : String) (fuel r t : Nat)
    (hg : isGenExc (runAction job (env r)) = true)
    (h1 : r < job.retry_count) (h2 : ¬ r < celeryMaxRetries) :
    (runJobAttempts job env trigger (fuel+1) r t).1 =
      [⟨t, trigger, r, "failed", none⟩] := by
  cases hc : runAction job (env r) with
  | ok u => simp [hc, isGenExc] at hg
  | error e =>
    cases e with
    | timeoutExpired => simp [hc, isGenExc] at hg
    | requestsTimeout => simp [runJobAttempts, hc, h1, h2]
    | genericError => simp [runJobAttempts, hc, h1, h2]

/-- A generic failure with the job-level retry budget exhausted is terminal:
one `failed` row, failure alert if configured. -/
theorem runJobAttempts_step_exhausted (job : Job) (env : Nat → ActionEnv)
    (trigger : String) (fuel r t : Nat)
    (hg : isGenExc (runAction job (env r)) = true)
    (h1 : ¬ r < job.retry_count) :
    (runJobAttempts job env trigger (fuel+1) r t).1 =
      [⟨t, trigger, r, "failed",
         if job.alert_on_failure then some "failure" else none⟩] := by
  cases hc : runAction job (env r) with
  | ok u => simp [hc, isGenExc] at hg
  | error e =>
    cases e with
    | timeoutExpired => simp [hc, isGenExc] at hg
    | requestsTimeout => simp [runJobAttempts, hc, h1]
    | genericError => simp [runJobAttempts, hc, h1]

/-- Full characterisation of the rows produced by an always-failing job,
starting from retry counter `r` and trace counter `t`: there are exactly
`min retry_count max_retries + 1 - r` rows, each `failed`, each with the
original trigger type, consecutive retry counters and consecutive fresh
trace ids. -/
theorem runJobAttempts_alwaysFail (job : Job) (env : Nat → ActionEnv)
    (trigger : String) (hf : AlwaysFails job env) :
    ∀ fuel r t,
      min job.retry_count celeryMaxRetries + 1 - r ≤ fuel →
      r ≤ min job.retry_count celeryMaxRetries →
      (runJobAttempts job env trigger fuel r t).1.length
          = min job.retry_count celeryMaxRetries + 1 - r ∧
      ∀ i, i < (runJobAttempts job env trigger fuel r t).1.length →
        ∃ a, (runJobAttempts job env trigger fuel r t).1.get? i = some a ∧
          a.status = "failed" ∧ a.trigger_type = trigger ∧
          a.retry_count = r + i ∧ a.trace_id = t + i := by
  have hc3 : celeryMaxRetries = 3 := rfl
  intro fuel
  induction fuel with
  | zero => intro r t hfuel hr; omega
  | succ fuel ih =>
    intro r t hfuel hr
    by_cases h1 : r < job.retry_count
    · by_cases h2 : r < celeryMaxRetries
      · have hstep := runJobAttempts_step_retry job env trigger fuel r t (hf r) h1 h2
        have hr1 : r + 1 ≤ min job.retry_count celeryMaxRetries := by omega
        have hf1 : min job.retry_count celeryMaxRetries + 1 - (r+1) ≤ fuel := by omega
        obtain ⟨hlen, hget⟩ := ih (r+1) (t+1) hf1 hr1
        rw [hstep]
        constructor
        · simp only [List.length_cons, hlen]
          omega
        · intro i hi
          cases i with
          | zero =>
            exact ⟨⟨t, trigger, r, "failed", none⟩, rfl, rfl, rfl, rfl, rfl⟩
          | succ i =>
            simp only [List.length_cons, hlen] at hi
            have hi' : i < (runJobAttempts job env trigger fuel (r+1) (t+1)).1.length := by
              omega
            obtain ⟨a, ha, hs, htr, hrc, hti⟩ := hget i hi'
            refine ⟨a, ?_, hs, htr, by omega, by omega⟩
            simpa using ha
      · have hstep := runJobAttempts_step_raise job env trigger fuel r t (hf r) h1 h2
        rw [hstep]
        refine ⟨by simp; omega, ?_⟩
        intro i hi
        simp only [List.length_cons, List.length_nil] at hi
        interval_cases i
        exact ⟨⟨t, trigger, r, "failed", none⟩, rfl, rfl, rfl, rfl, rfl⟩
    · have hstep := runJobAttempts_step_exhausted job env trigger fuel r t (hf r) h1
      rw [hstep]
      refine ⟨by simp; omega, ?_⟩
      intro i hi
      simp only [List.length_cons, List.length_nil] at hi
      interval_cases i
      exact ⟨_, rfl, rfl, rfl, rfl, rfl⟩

/-- Specialisation to the task entry point: an always-failing job produces
exactly `min retry_count 3 + 1` rows with retry counters `0, 1, 2, ...` and
trace ids `0, 1, 2, ...`, all with the original trigger type. -/
theorem execute_job_alwaysFail (job : Job) (env : Nat → ActionEnv)
    (trigger : String) (hf : AlwaysFails job env) :
    (execute_job (some job) env trigger).1.length
        = min job.retry_count celeryMaxRetries + 1 ∧
    ∀ i, i < (execute_job (some job) env trigger).1.length →
      ∃ a, (execute_job (some job) env trigger).1.get? i = some a ∧
        a.status = "failed" ∧ a.trigger_type = trigger ∧
        a.retry_count = i ∧ a.trace_id = i := by
  have hc3 : celeryMaxRetries = 3 := rfl
  have h := runJobAttempts_alwaysFail job env trigger hf (celeryMaxRetries + 1) 0 0
      (by omega) (by omega)
  obtain ⟨hlen, hget⟩ := h
  refine ⟨by simpa [execute_job] using hlen, ?_⟩
  intro i hi
  have hi' : i < (runJobAttempts job env trigger (celeryMaxRetries + 1) 0 0).1.length := hi
  obtain ⟨a, ha, hs, htr, hrc, hti⟩ := hget i hi'
  exact ⟨a, ha, hs, htr, by omega, by omega⟩

/-- Every row of an always-failing run is `failed`, keeps the original
trigger type, and has its retry counter bounded by
`min retry_count max_retries`. -/
theorem execute_job_alwaysFail_mem (job : Job) (env : Nat → ActionEnv)
    (trigger : String) (hf : AlwaysFails job env) :
    ∀ a ∈ (execute_job (some job) env trigger).1,
      a.status = "failed" ∧ a.trigger_type = trigger ∧
      a.retry_count ≤ min job.retry_count celeryMaxRetries := by
  obtain ⟨hlen, hget⟩ := execute_job_alwaysFail job env trigger hf
  intro a ha
  obtain ⟨n, hn⟩ := List.mem_iff_get?.mp ha
  have hnlt : n < (execute_job (some job) env trigger).1.length := by
    by_contra hge
    rw [List.get?_eq_none.mpr (by omega)] at hn
    exact Option.noConfusion hn
  obtain ⟨a', ha', hs, htr, hrc, hti⟩ := hget n hnlt
  rw [hn] at ha'
  cases ha'
  exact ⟨hs, htr, by omega⟩

/-- Claim C4 (amended): an always-failing job with configured retry count
`N` produces exactly `min N 3 + 1` attempts — Celery's task-level
`max_retries = 3` caps the automatic retries at three — every attempt is
`failed` (in particular the final one), and no attempt's retry counter
exceeds `min N 3` (hence never exceeds `N`). -/
theorem retry_attempts_capped (job : Job) (env : Nat → ActionEnv)
    (trigger : String) (hf : AlwaysFails job env) :
    (execute_job (some job) env trigger).1.length
        = min job.retry_count celeryMaxRetries + 1 ∧
    (execute_job (some job) env trigger).1 ≠ [] ∧
    ∀ a ∈ (execute_job (some job) env trigger).1,
      a.status = "failed" ∧ a.retry_count ≤ min job.retry_count celeryMaxRetries ∧
      a.retry_count ≤ job.retry_count := by
  have hc3 : celeryMaxRetries = 3 := rfl
  obtain ⟨hlen, _⟩ := execute_job_alwaysFail job env trigger hf
  have hmem := execute_job_alwaysFail_mem job env trigger hf
  refine ⟨hlen, ?_, ?_⟩
  · intro hnil
    rw [hnil] at hlen
    simp only [List.length_nil] at hlen
    omega
  · intro a ha
    obtain ⟨hs, _, hrc⟩ := hmem a ha
    exact ⟨hs, hrc, by omega⟩

/-- Claim C4 counterexample: a job with `retry_count = 5` whose action always
fails produces 4 attempts, not the 6 the claim requires, and the task
re-raises the exception (Celery's `MaxRetriesExceededError` path with
`exc=e`) instead of returning a result. -/
theorem retry_attempts_claim_counterexample :
    (execute_job (some ⟨JobType.http, 5, 60, 60, true, true⟩)
        (fun _ => ⟨0, false⟩) "cron").1.length = 4 ∧
    (execute_job (some ⟨JobType.http, 5, 60, 60, true, true⟩)
        (fun _ => ⟨0, false⟩) "cron").1.length ≠ 5 + 1 ∧
    (execute_job (some ⟨JobType.http, 5, 60, 60, true, true⟩)
        (fun _ => ⟨0, false⟩) "cron").2 = Except.error PyExc.genericError :=
  ⟨rfl, by decide, rfl⟩

/-- Claim C4 witness: the amended statement at a concrete job
(`retry_count = 2`, SQL action failing on every attempt). -/
theorem retry_attempts_capped_witness :
    (execute_job (some ⟨JobType.sql, 2, 1, 5, false, false⟩)
        (fun _ => ⟨0, false⟩) "manual").1.length = min 2 celeryMaxRetries + 1 ∧
    (execute_job (some ⟨JobType.sql, 2, 1, 5, false, false⟩)
        (fun _ => ⟨0, false⟩) "manual").1 ≠ [] ∧
    ((⟨0, "manual", 0, "failed", none⟩ : JobAttempt).status = "failed" ∧
     (⟨0, "manual", 0, "failed", none⟩ : JobAttempt).retry_count
        ≤ min 2 celeryMaxRetries ∧
     (⟨0, "manual", 0, "failed", none⟩ : JobAttempt).retry_count ≤ 2) := by
  have h := retry_attempts_capped ⟨JobType.sql, 2, 1, 5, false, false⟩
    (fun _ => ⟨0, false⟩) "manual" (fun _ => rfl)
  exact ⟨h.1, h.2.1, h.2.2 ⟨0, "manual", 0, "failed", none⟩ (by decide)⟩

/-- Claim C3 (amended): only the shell executor reports a deadline overrun
as `subprocess.TimeoutExpired`; a shell job whose action always exceeds its
timeout yields exactly one attempt with terminal status `timeout` and no
retry.  An HTTP job in the same situation raises
`requests.exceptions.Timeout`, which the task handles as a generic failure
and retries: every attempt ends `failed`. -/
theorem timeout_terminal_by_job_type :
    (∀ (job : Job) (env : Nat → ActionEnv) (trigger : String),
        job.jobType = JobType.shell → (∀ k, job.timeout < (env k).duration) →
        execute_job (some job) env trigger =
          ([⟨0, trigger, 0, "timeout",
              if job.alert_on_timeout then some "timeout" else none⟩],
           Except.ok ⟨"timeout", some "timed out"⟩)) ∧
    (∀ (job : Job) (env : Nat → ActionEnv) (trigger : String),
        job.jobType = JobType.http → (∀ k, job.timeout < (env k).duration) →
        (execute_job (some job) env trigger).1.length
            = min job.retry_count celeryMaxRetries + 1 ∧
        ∀ a ∈ (execute_job (some job) env trigger).1, a.status = "failed") := by
  constructor
  · intro job env trigger hty h
    have hact : runAction job (env 0) = Except.error PyExc.timeoutExpired := by
      simp [runAction, hty, h 0]
    simp [execute_job, runJobAttempts, hact]
  · intro job env trigger hty h
    have hf : AlwaysFails job env := by
      intro k
      have hact : runAction job (env k) = Except.error PyExc.requestsTimeout := by
        simp [runAction, hty, h k]
      simp [hact, isGenExc]
    obtain ⟨hlen, _⟩ := execute_job_alwaysFail job env trigger hf
    exact ⟨hlen, fun a ha => (execute_job_alwaysFail_mem job env trigger hf a ha).1⟩

/-- Claim C3 counterexample: an HTTP job (default `retry_count = 3`) whose
remote call always exceeds the 60s timeout is retried as a generic failure:
four attempts, all `failed`, none `timeout`. -/
theorem timeout_claim_counterexample :
    ((execute_job (some ⟨JobType.http, 3, 60, 60, true, true⟩)
        (fun _ => ⟨61, true⟩) "cron").1.map JobAttempt.status)
      = ["failed", "failed", "failed", "failed"] ∧
    (execute_job (some ⟨JobType.http, 3, 60, 60, true, true⟩)
        (fun _ => ⟨61, true⟩) "cron").1.length ≠ 1 :=
  ⟨rfl, by decide⟩

/-- Claim C3 witness: the shell half of the amended statement at a concrete
job. -/
theorem timeout_terminal_by_job_type_witness :
    execute_job (some ⟨JobType.shell, 3, 60, 60, true, true⟩)
        (fun _ => ⟨61, true⟩) "cron" =
      ([⟨0, "cron", 0, "timeout", some "timeout"⟩],
       Except.ok ⟨"timeout", some "timed out"⟩) :=
  timeout_terminal_by_job_type.1 ⟨JobType.shell, 3, 60, 60, true, true⟩
    (fun _ => ⟨61, true⟩) "cron" rfl (fun _ => (by decide : (60 : Nat) < 61))

/-- Claim C9 (amended): a retry re-executes the task with the *same*
trigger type and a *fresh* trace id; attempt `i` of an always-failing chain
has trigger type equal to the original one, retry counter `i` and trace id
`i`.  No attempt carries trigger mode `retry`, and no attempt references the
prior attempt's trace id. -/
theorem retry_keeps_trigger_fresh_trace (job : Job) (env : Nat → ActionEnv)
    (trigger : String) (hf : AlwaysFails job env) :
    ∀ i, i < (execute_job (some job) env trigger).1.length →
      ∃ a, (execute_job (some job) env trigger).1.get? i = some a ∧
        a.trigger_type = trigger ∧ a.retry_count = i ∧ a.trace_id = i := by
  intro i hi
  obtain ⟨a, ha, _, htr, hrc, hti⟩ :=
    (execute_job_alwaysFail job env trigger hf).2 i hi
  exact ⟨a, ha, htr, hrc, hti⟩

/-- Claim C9 counterexample: for a `cron`-triggered job with one retry, the
retry attempt is recorded with `trigger_type = "cron"` (not `"retry"`) and a
fresh trace id unrelated to the first attempt. -/
theorem retry_trigger_claim_counterexample :
    execute_job (some ⟨JobType.http, 1, 60, 60, true, true⟩)
        (fun _ => ⟨0, false⟩) "cron" =
      ([⟨0, "cron", 0, "failed", none⟩, ⟨1, "cron", 1, "failed", some "failure"⟩],
       Except.ok ⟨"failed", some "failed"⟩) ∧
    ("cron" : String) ≠ "retry" :=
  ⟨rfl, by decide⟩

/-- Claim C9 witness: the amended statement at a concrete flow-triggered job,
attempt 1 (the retry). -/
theorem retry_keeps_trigger_fresh_trace_witness :
    ((execute_job (some ⟨JobType.python, 1, 1, 5, false, false⟩)
        (fun _ => ⟨0, false⟩) "flow").1.get? 1).map JobAttempt.trigger_type
      = some "flow" ∧
    ((execute_job (some ⟨JobType.python, 1, 1, 5, false, false⟩)
        (fun _ => ⟨0, false⟩) "flow").1.get? 1).map JobAttempt.retry_count
      = some 1 ∧
    ((execute_job (some ⟨JobType.python, 1, 1, 5, false, false⟩)
        (fun _ => ⟨0, false⟩) "flow").1.get? 1).map JobAttempt.trace_id
      = some 1 := by
  obtain ⟨a, ha, h1, h2, h3⟩ := retry_keeps_trigger_fresh_trace
    ⟨JobType.python, 1, 1, 5, false, false⟩ (fun _ => ⟨0, false⟩) "flow"
    (fun _ => rfl) 1 (by decide)
  rw [ha]
  simp [h1, h2, h3]

/-- Claim C10: invoking the job-execution entry point with a job id that
matches no stored job returns `{'status': 'error', 'message': 'Job not
found'}`, raises nothing, and creates no `JobLog` row. -/
theorem missing_job_returns_error (env : Nat → ActionEnv) (trigger : String) :
    execute_job none env trigger = ([], Except.ok ⟨"error", some "Job not found"⟩) :=
  rfl

/-! ## The DAG execution engine (`apps/scheduler/services.py`,
`DAGExecutionEngine`) -/

/-- The outcome of evaluating a node's `expression` condition with Python
`eval` against the results context.  The source wraps the `eval` in
`try/except` and returns `False` on any exception; the `eval` outcome is
abstracted as data carried by the node. -/
inductive CondExprRes
  | val (b : Bool)
  | exn
  deriving DecidableEq, Repr

/-- A node condition (`DAGExecutionEngine._evaluate_condition` recognises
`always`, `node_success`, `node_failed` and `expression`; any other type
falls through to `True`). -/
inductive Cond
  | always
  | nodeSuccess (nodeId : String)
  | nodeFailed (nodeId : String)
  | expression (result : CondExprRes)
  | otherType
  deriving DecidableEq, Repr

/-- One entry of `dag_config['nodes']`, restricted to the fields the engine
reads: the node id, the optional job reference and the optional condition. -/
structure FlowNode where
  id : String
  job_id : Option Nat
  condition : Option Cond
  deriving DecidableEq, Repr

/-- One entry of `dag_config['edges']`. -/
structure FlowEdge where
  source : String
  target : String
  deriving DecidableEq, Repr

/-- A `JobFlow.dag_config`: nodes, edges, error strategy
(`fail_fast` | `continue` | `skip_downstream`) and the parallelism cap
(which only bounds the worker pool; completion order is captured by the
schedule oracle below). -/
structure JobFlow where
  nodes : List FlowNode
  edges : List FlowEdge
  error_strategy : String
  max_parallel : Nat
  deriving DecidableEq, Repr

/-- `self.nodes = {n['id']: n for n in dag_config['nodes']}`: lookup in the
id-keyed dict (a later duplicate id overwrites an earlier one). -/
def findNode (flow : JobFlow) (i : String) : Option FlowNode :=
  flow.nodes.reverse.find? (fun n => n.id == i)

/-- The key set of `self.nodes`: the distinct node ids. -/
def nodeIds (flow : JobFlow) : List String :=
  (flow.nodes.map FlowNode.id).dedup

/-- `_build_dependencies`: the direct upstream ids of `n` (sources of edges
into `n`); an edge may reference an id that is not a node. -/
def depsOf (flow : JobFlow) (n : String) : List String :=
  (flow.edges.filter (fun e => e.target == n)).map FlowEdge.source

/-- `_build_dependents`: the direct downstream ids of `n`. -/
def dependentsOf (flow : JobFlow) (n : String) : List String :=
  (flow.edges.filter (fun e => e.source == n)).map FlowEdge.target

/-- One expansion step of the downstream traversal: add the targets of all
edges leaving the current set. -/
def downstreamStep (flow : JobFlow) (s : List String) : List String :=
  (s ++ (flow.edges.filter (fun e => s.contains e.source)).map FlowEdge.target).dedup

/-- `_get_downstream_nodes`: every id reachable from `n` through at least
one edge.  The source's stack-based traversal is embedded as saturation of
the one-step expansion; `edges.length` rounds reach the fixpoint because
each productive round adds at least one of the at most `edges.length`
distinct edge targets. -/
def downstreamOf (flow : JobFlow) (n : String) : List String :=
  Nat.iterate (downstreamStep flow) flow.edges.length (dependentsOf flow n)

/-- The engine's execution state: `self.status`, `self.failed_nodes` and
`self.skipped_nodes`, plus the `execute` locals `executed` and `pending`.
`invoked` is a ghost audit trail recording the nodes whose Job was submitted
to `execute_job` (`executor.submit(self._execute_node, ...)` on a node with
a `job_id`). -/
structure EngineState where
  status : String → Option String
  failed : List String
  skipped : List String
  executed : List String
  pending : List String
  invoked : List String

/-- `_evaluate_condition`: `always` is true; `node_success`/`node_failed`
compare the recorded status of the referenced node; an `expression` yields
its `eval` outcome with any exception converted to `False` by the
`try/except`; an unrecognised type falls through to `True`. -/
def evalCondition (st : EngineState) : Cond → Bool
  | .always => true
  | .nodeSuccess i => st.status i == some "success"
  | .nodeFailed i => st.status i == some "failed"
  | .expression (.val b) => b
  | .expression .exn => false
  | .otherType => true

/-- The dependency check of `_can_execute` (its `for dep in deps` loop):
every dependency is executed, and no dependency failed when the strategy is
`skip_downstream`. -/
def depsOk (flow : JobFlow) (st : EngineState) (n : String) : Bool :=
  (depsOf flow n).all fun d =>
    st.executed.contains d &&
    !(st.failed.contains d && flow.error_strategy == "skip_downstream")

/-- `_can_execute`: a node is ready when it is not in the skipped set,
exists in the node map, its dependency check passes, and its condition (if
any) currently evaluates to true. -/
def canExecute (flow : JobFlow) (st : EngineState) (n : String) : Bool :=
  if st.skipped.contains n then false
  else
    match findNode flow n with
    | none => false
    | some node =>
      if depsOk flow st n then
        match node.condition with
        | none => true
        | some c => evalCondition st c
      else false

/-- Whether `_execute_node` invokes `execute_job` for node `n` (the node
exists and carries a `job_id`; nodes without one are virtual). -/
def hasJob (flow : JobFlow) (n : String) : Bool :=
  match findNode flow n with
  | some node => node.job_id.isSome
  | none => false

/-- What `future.result()` yields for a node: the returned result
dictionary's status, or a re-raised exception from the node's execution. -/
inductive NodeCallRes
  | returns (status : String)
  | raises
  deriving DecidableEq, Repr

/-- `_execute_node` for node `n`: a missing node yields a `failed` dict, a
node without a job is virtual and yields `success`, otherwise the node's
`execute_job` invocation yields the per-node oracle's answer. -/
def nodeOutcome (flow : JobFlow) (jobCall : String → NodeCallRes) (n : String) :
    NodeCallRes :=
  match findNode flow n with
  | none => .returns "failed"
  | some node =>
    match node.job_id with
    | none => .returns "success"
    | some _ => jobCall n

/-- Point update of the node-status map. -/
def setStatus (f : String → Option String) (n : String) (s : String) :
    String → Option String :=
  fun m => if m = n then some s else f m

/-- Bulk update of the node-status map: every id in `l` gets status `s`. -/
def setStatusAll (f : String → Option String) (l : List String) (s : String) :
    String → Option String :=
  fun m => if l.contains m then some s else f m

/-- The body of the `for future in as_completed(futures)` loop of `execute`
for one completed node `n`: the successor state, and whether the `break` of
the fail-fast branch fired.  On a returned `failed` status: under
`fail_fast` every node still in `pending` other than `n` is marked skipped,
`pending` is cleared and the loop breaks — the breaking node's own move into
`executed` (lines 292-293) is skipped by the break; under `skip_downstream`
the downstream closure of `n` is marked skipped and removed from `pending`.
An exception from the future marks `n` failed *without* applying the error
strategy (`except` branch, lines 286-290).  Every non-breaking node is
appended to `executed` and removed from `pending`. -/
def handleNode (flow : JobFlow) (jobCall : String → NodeCallRes)
    (st : EngineState) (n : String) : EngineState × Bool :=
  match nodeOutcome flow jobCall n with
  | .raises =>
    ({ st with status := setStatus st.status n "failed",
               failed := st.failed ++ [n],
               executed := st.executed ++ [n],
               pending := st.pending.erase n }, false)
  | .returns s =>
    let st1 : EngineState := { st with status := setStatus st.status n s }
    if s = "failed" then
      let st2 : EngineState := { st1 with failed := st1.failed ++ [n] }
      if flow.error_strategy = "fail_fast" then
        ({ st2 with
            skipped := st2.skipped ++ st2.pending.filter (fun p => p != n),
            status := setStatusAll st2.status (st2.pending.filter (fun p => p != n)) "skipped",
            pending := [] }, true)
      else if flow.error_strategy = "skip_downstream" then
        let ds := downstreamOf flow n
        let st3 : EngineState :=
          { st2 with
              skipped := st2.skipped ++ ds,
              status := setStatusAll st2.status ds "skipped",
              pending := st2.pending.filter (fun p => !ds.contains p) }
        ({ st3 with executed := st3.executed ++ [n],
                    pending := st3.pending.erase n }, false)
      else
        ({ st2 with executed := st2.executed ++ [n],
                    pending := st2.pending.erase n }, false)
    else
      ({ st1 with executed := st1.executed ++ [n],
                  pending := st1.pending.erase n }, false)

/-- The `for future in as_completed(futures)` loop of `execute`, processing
the wave's nodes in completion order `cs`; a fail-fast break drops the
remaining completions of the wave. -/
def processWave (flow : JobFlow) (jobCall : String → NodeCallRes) :
    EngineState → List String → EngineState
  | st, [] => st
  | st, n :: rest =>
    let r := handleNode flow jobCall st n
    if r.2 then r.1 else processWave flow jobCall r.1 rest

/-- The `while pending:` loop of `execute`, one fuel unit per iteration.
When no pending node is ready, every remaining pending node is marked
skipped and the loop stops (lines 244-251); otherwise the ready nodes are
submitted (recording the job invocations) and the wave is processed in the
completion order chosen by `sched`. -/
def engineLoop (flow : JobFlow) (jobCall : String → NodeCallRes)
    (sched : List String → List String) : Nat → EngineState → EngineState
  | 0, st => st
  | fuel+1, st =>
    if st.pending.isEmpty then st
    else
      let ready := st.pending.filter (canExecute flow st)
      if ready.isEmpty then
        { st with
            skipped := st.skipped ++ st.pending,
            status := setStatusAll st.status st.pending "skipped" }
      else
        engineLoop flow jobCall sched fuel
          (processWave flow jobCall
            { st with invoked := st.invoked ++ ready.filter (hasJob flow) }
            (sched ready))

/-- The starting state of `execute`: every node id pending, no statuses. -/
def initState (flow : JobFlow) : EngineState :=
  { status := fun _ => none, failed := [], skipped := [],
    executed := [], pending := nodeIds flow, invoked := [] }

/-- `DAGExecutionEngine.execute`: the `FlowInstance` record is created
unconditionally before the loop — the engine performs no DAG validation —
then the wave loop runs and the overall status is computed: `failed` if the
failed set is non-empty, else `partial` if the skipped set is non-empty,
else `success`.  The returned pair is the overall status together with the
final engine state (what is persisted into `FlowInstance.result`).  `sched`
chooses each wave's completion order (`as_completed` yields futures in a
nondeterministic order); theorems quantify over it. -/
def executeFlow (flow : JobFlow) (jobCall : String → NodeCallRes)
    (sched : List String → List String) : String × EngineState :=
  let stf := engineLoop flow jobCall sched (flow.nodes.length + 1) (initState flow)
  (if stf.failed ≠ [] then "failed"
   else if stf.skipped ≠ [] then "partial"
   else "success", stf)

/-- A wave's completion order is a permutation of the wave: `as_completed`
yields every submitted future exactly once. -/
def SchedPerm (sched : List String → List String) : Prop :=
  ∀ l, List.Perm (sched l) l

/-! ### Branch equations and bookkeeping facts for `handleNode` -/

/-- `l.contains` agrees with list membership. -/
theorem contains_true_iff (l : List String) (a : String) :
    l.contains a = true ↔ a ∈ l :=
  List.elem_iff

/-- Branch equation: the future raised. -/
theorem handleNode_raises (flow : JobFlow) (jobCall : String → NodeCallRes)
    (st : EngineState) (n : String)
    (ho : nodeOutcome flow jobCall n = .raises) :
    handleNode flow jobCall st n =
      ({ st with status := setStatus st.status n "failed",
                 failed := st.failed ++ [n],
                 executed := st.executed ++ [n],
                 pending := st.pending.erase n }, false) := by
  simp [handleNode, ho]

/-- Branch equation: the future returned a non-`failed` status. -/
theorem handleNode_returns_ok (flow : JobFlow) (jobCall : String → NodeCallRes)
    (st : EngineState) (n : String) (s : String)
    (ho : nodeOutcome flow jobCall n = .returns s) (hs : s ≠ "failed") :
    handleNode flow jobCall st n =
      ({ st with status := setStatus st.status n s,
                 executed := st.executed ++ [n],
                 pending := st.pending.erase n }, false) := by
  simp [handleNode, ho, hs]

/-- Branch equation: `failed` result under `fail_fast` — the break fires. -/
theorem handleNode_failed_ff (flow : JobFlow) (jobCall : String → NodeCallRes)
    (st : EngineState) (n : String)
    (ho : nodeOutcome flow jobCall n = .returns "failed")
    (hff : flow.error_strategy = "fail_fast") :
    handleNode flow jobCall st n =
      ({ st with status := setStatusAll (setStatus st.status n "failed")
                    (st.pending.filter (fun p => p != n)) "skipped",
                 failed := st.failed ++ [n],
                 skipped := st.skipped ++ st.pending.filter (fun p => p != n),
                 pending := [] }, true) := by
  simp [handleNode, ho, hff]

/-- Branch equation: `failed` result under `skip_downstream`. -/
theorem handleNode_failed_sd (flow : JobFlow) (jobCall : String → NodeCallRes)
    (st : EngineState) (n : String)
    (ho : nodeOutcome flow jobCall n = .returns "failed")
    (_hff : flow.error_strategy ≠ "fail_fast")
    (hsd : flow.error_strategy = "skip_downstream") :
    handleNode flow jobCall st n =
      ({ st with status := setStatusAll (setStatus st.status n "failed")
                    (downstreamOf flow n) "skipped",
                 failed := st.failed ++ [n],
                 skipped := st.skipped ++ downstreamOf flow n,
                 executed := st.executed ++ [n],
                 pending := (st.pending.filter
                    (fun p => !(downstreamOf flow n).contains p)).erase n },
       false) := by
  simp [handleNode, ho, hsd]

/-- Branch equation: `failed` result under any other strategy
(`continue` included): no special action. -/
theorem handleNode_failed_other (flow : JobFlow) (jobCall : String → NodeCallRes)
    (st : EngineState) (n : String)
    (ho : nodeOutcome flow jobCall n = .returns "failed")
    (hff : flow.error_strategy ≠ "fail_fast")
    (hsd : flow.error_strategy ≠ "skip_downstream") :
    handleNode flow jobCall st n =
      ({ st with status := setStatus st.status n "failed",
                 failed := st.failed ++ [n],
                 executed := st.executed ++ [n],
                 pending := st.pending.erase n }, false) := by
  simp [handleNode, ho, hff, hsd]

/-- Handling a node never adds to `pending`. -/
theorem handleNode_pending_mem (flow : JobFlow) (jobCall : String → NodeCallRes)
    (st : EngineState) (n : String) :
    ∀ m ∈ (handleNode flow jobCall st n).1.pending, m ∈ st.pending := by
  intro m hm
  cases ho : nodeOutcome flow jobCall n with
  | raises =>
    rw [handleNode_raises flow jobCall st n ho] at hm
    exact List.mem_of_mem_erase hm
  | returns s =>
    by_cases hs : s = "failed"
    · subst hs
      by_cases hff : flow.error_strategy = "fail_fast"
      · rw [handleNode_failed_ff flow jobCall st n ho hff] at hm
        simp at hm
      · by_cases hsd : flow.error_strategy = "skip_downstream"
        · rw [handleNode_failed_sd flow jobCall st n ho hff hsd] at hm
          exact List.mem_of_mem_filter (List.mem_of_mem_erase hm)
        · rw [handleNode_failed_other flow jobCall st n ho hff hsd] at hm
          exact List.mem_of_mem_erase hm
    · rw [handleNode_returns_ok flow jobCall st n s ho hs] at hm
      exact List.mem_of_mem_erase hm

/-- Handling a node never grows `pending`. -/
theorem handleNode_pending_length (flow : JobFlow) (jobCall : String → NodeCallRes)
    (st : EngineState) (n : String) :
    (handleNode flow jobCall st n).1.pending.length ≤ st.pending.length := by
  cases ho : nodeOutcome flow jobCall n with
  | raises =>
    rw [handleNode_raises flow jobCall st n ho]
    exact List.length_erase_le n st.pending
  | returns s =>
    by_cases hs : s = "failed"
    · subst hs
      by_cases hff : flow.error_strategy = "fail_fast"
      · rw [handleNode_failed_ff flow jobCall st n ho hff]
        exact Nat.zero_le _
      · by_cases hsd : flow.error_strategy = "skip_downstream"
        · rw [handleNode_failed_sd flow jobCall st n ho hff hsd]
          exact le_trans (List.length_erase_le _ _) (List.length_filter_le _ _)
        · rw [handleNode_failed_other flow jobCall st n ho hff hsd]
          exact List.length_erase_le n st.pending
    · rw [handleNode_returns_ok flow jobCall st n s ho hs]
      exact List.length_erase_le n st.pending

/-- Handling a node that is still pending strictly shrinks `pending`. -/
theorem handleNode_pending_length_lt (flow : JobFlow) (jobCall : String → NodeCallRes)
    (st : EngineState) (n : String) (hn : n ∈ st.pending) :
    (handleNode flow jobCall st n).1.pending.length < st.pending.length := by
  have hpos : 0 < st.pending.length :=
    List.length_pos.mpr (List.ne_nil_of_mem hn)
  cases ho : nodeOutcome flow jobCall n with
  | raises =>
    rw [handleNode_raises flow jobCall st n ho]
    show (st.pending.erase n).length < st.pending.length
    have := List.length_erase_of_mem hn
    omega
  | returns s =>
    by_cases hs : s = "failed"
    · subst hs
      by_cases hff : flow.error_strategy = "fail_fast"
      · rw [handleNode_failed_ff flow jobCall st n ho hff]
        show ([] : List String).length < st.pending.length
        simpa using hpos
      · by_cases hsd : flow.error_strategy = "skip_downstream"
        · rw [handleNode_failed_sd flow jobCall st n ho hff hsd]
          show ((st.pending.filter
              (fun p => !(downstreamOf flow n).contains p)).erase n).length
            < st.pending.length
          by_cases hds : (downstreamOf flow n).contains n = true
          · have hflt : (st.pending.filter
                (fun p => !(downstreamOf flow n).contains p)).length < st.pending.length :=
              List.length_filter_lt_length_iff_exists.mpr
                ⟨n, hn, by intro h; rw [hds] at h; simp at h⟩
            have := List.length_erase_le n
                (st.pending.filter (fun p => !(downstreamOf flow n).contains p))
            omega
          · have hmem : n ∈ st.pending.filter
                (fun p => !(downstreamOf flow n).contains p) :=
              List.mem_filter.mpr ⟨hn, by
                have hf : (downstreamOf flow n).contains n = false := by
                  cases hc : (downstreamOf flow n).contains n
                  · rfl
                  · exact absurd hc hds
                show (!(downstreamOf flow n).contains n) = true
                rw [hf]
                rfl⟩
            have h1 := List.length_erase_of_mem hmem
            have h2 := List.length_filter_le
                (fun p => !(downstreamOf flow n).contains p) st.pending
            have h3 : 0 < (st.pending.filter
                (fun p => !(downstreamOf flow n).contains p)).length :=
              List.length_pos.mpr (List.ne_nil_of_mem hmem)
            omega
        · rw [handleNode_failed_other flow jobCall st n ho hff hsd]
          show (st.pending.erase n).length < st.pending.length
          have := List.length_erase_of_mem hn
          omega
    · rw [handleNode_returns_ok flow jobCall st n s ho hs]
      show (st.pending.erase n).length < st.pending.length
      have := List.length_erase_of_mem hn
      omega

/-- Handling a node preserves membership in `skipped`. -/
theorem handleNode_skipped_mono (flow : JobFlow) (jobCall : String → NodeCallRes)
    (st : EngineState) (n : String) :
    ∀ m ∈ st.skipped, m ∈ (handleNode flow jobCall st n).1.skipped := by
  intro m hm
  cases ho : nodeOutcome flow jobCall n with
  | raises =>
    rw [handleNode_raises flow jobCall st n ho]; exact hm
  | returns s =>
    by_cases hs : s = "failed"
    · subst hs
      by_cases hff : flow.error_strategy = "fail_fast"
      · rw [handleNode_failed_ff flow jobCall st n ho hff]
        exact List.mem_append_left _ hm
      · by_cases hsd : flow.error_strategy = "skip_downstream"
        · rw [handleNode_failed_sd flow jobCall st n ho hff hsd]
          exact List.mem_append_left _ hm
        · rw [handleNode_failed_other flow jobCall st n ho hff hsd]; exact hm
    · rw [handleNode_returns_ok flow jobCall st n s ho hs]; exact hm

/-- Handling a node does not touch the invocation trail. -/
theorem handleNode_invoked_eq (flow : JobFlow) (jobCall : String → NodeCallRes)
    (st : EngineState) (n : String) :
    (handleNode flow jobCall st n).1.invoked = st.invoked := by
  cases ho : nodeOutcome flow jobCall n with
  | raises => rw [handleNode_raises flow jobCall st n ho]
  | returns s =>
    by_cases hs : s = "failed"
    · subst hs
      by_cases hff : flow.error_strategy = "fail_fast"
      · rw [handleNode_failed_ff flow jobCall st n ho hff]
      · by_cases hsd : flow.error_strategy = "skip_downstream"
        · rw [handleNode_failed_sd flow jobCall st n ho hff hsd]
        · rw [handleNode_failed_other flow jobCall st n ho hff hsd]
    · rw [handleNode_returns_ok flow jobCall st n s ho hs]

/-- The node completed at this step is the only possible addition to the
failed set, and only when its outcome was a `failed` return or a raise. -/
theorem handleNode_failed_sub (flow : JobFlow) (jobCall : String → NodeCallRes)
    (st : EngineState) (n : String) :
    ∀ m ∈ (handleNode flow jobCall st n).1.failed,
      m ∈ st.failed ∨ (m = n ∧
        (nodeOutcome flow jobCall n = .returns "failed" ∨
         nodeOutcome flow jobCall n = .raises)) := by
  intro m hm
  cases ho : nodeOutcome flow jobCall n with
  | raises =>
    rw [handleNode_raises flow jobCall st n ho] at hm
    rcases List.mem_append.mp hm with h | h
    · exact Or.inl h
    · exact Or.inr ⟨by simpa using h, Or.inr rfl⟩
  | returns s =>
    by_cases hs : s = "failed"
    · subst hs
      by_cases hff : flow.error_strategy = "fail_fast"
      · rw [handleNode_failed_ff flow jobCall st n ho hff] at hm
        rcases List.mem_append.mp hm with h | h
        · exact Or.inl h
        · exact Or.inr ⟨by simpa using h, Or.inl rfl⟩
      · by_cases hsd : flow.error_strategy = "skip_downstream"
        · rw [handleNode_failed_sd flow jobCall st n ho hff hsd] at hm
          rcases List.mem_append.mp hm with h | h
          · exact Or.inl h
          · exact Or.inr ⟨by simpa using h, Or.inl rfl⟩
        · rw [handleNode_failed_other flow jobCall st n ho hff hsd] at hm
          rcases List.mem_append.mp hm with h | h
          · exact Or.inl h
          · exact Or.inr ⟨by simpa using h, Or.inl rfl⟩
    · rw [handleNode_returns_ok flow jobCall st n s ho hs] at hm
      exact Or.inl hm

/-- Unfolding equation for one wave step. -/
theorem processWave_cons (flow : JobFlow) (jobCall : String → NodeCallRes)
    (st : EngineState) (n : String) (rest : List String) :
    processWave flow jobCall st (n :: rest) =
      if (handleNode flow jobCall st n).2 then (handleNode flow jobCall st n).1
      else processWave flow jobCall (handleNode flow jobCall st n).1 rest := rfl

/-- A wave never adds to `pending`. -/
theorem processWave_pending_mem (flow : JobFlow) (jobCall : String → NodeCallRes) :
    ∀ cs st, ∀ m ∈ (processWave flow jobCall st cs).pending, m ∈ st.pending := by
  intro cs
  induction cs with
  | nil => intro st m hm; exact hm
  | cons n rest ih =>
    intro st m hm
    rw [processWave_cons] at hm
    by_cases hb : (handleNode flow jobCall st n).2 = true
    · rw [if_pos hb] at hm
      exact handleNode_pending_mem flow jobCall st n m hm
    · rw [if_neg hb] at hm
      exact handleNode_pending_mem flow jobCall st n m (ih _ m hm)

/-- A wave never grows `pending`. -/
theorem processWave_pending_length (flow : JobFlow) (jobCall : String → NodeCallRes) :
    ∀ cs st, (processWave flow jobCall st cs).pending.length ≤ st.pending.length := by
  intro cs
  induction cs with
  | nil => intro st; exact le_refl _
  | cons n rest ih =>
    intro st
    rw [processWave_cons]
    by_cases hb : (handleNode flow jobCall st n).2 = true
    · rw [if_pos hb]
      exact handleNode_pending_length flow jobCall st n
    · rw [if_neg hb]
      exact le_trans (ih _) (handleNode_pending_length flow jobCall st n)

/-- A wave whose first completion is still pending strictly shrinks
`pending`. -/
theorem processWave_pending_length_lt (flow : JobFlow) (jobCall : String → NodeCallRes)
    (st : EngineState) (n : String) (rest : List String) (hn : n ∈ st.pending) :
    (processWave flow jobCall st (n :: rest)).pending.length < st.pending.length := by
  rw [processWave_cons]
  by_cases hb : (handleNode flow jobCall st n).2 = true
  · rw [if_pos hb]
    exact handleNode_pending_length_lt flow jobCall st n hn
  · rw [if_neg hb]
    exact lt_of_le_of_lt (processWave_pending_length flow jobCall rest _)
      (handleNode_pending_length_lt flow jobCall st n hn)

/-- A wave does not touch the invocation trail. -/
theorem processWave_invoked_eq (flow : JobFlow) (jobCall : String → NodeCallRes) :
    ∀ cs st, (processWave flow jobCall st cs).invoked = st.invoked := by
  intro cs
  induction cs with
  | nil => intro st; rfl
  | cons n rest ih =>
    intro st
    rw [processWave_cons]
    by_cases hb : (handleNode flow jobCall st n).2 = true
    · rw [if_pos hb]
      exact handleNode_invoked_eq flow jobCall st n
    · rw [if_neg hb]
      rw [ih, handleNode_invoked_eq]

/-- A wave preserves membership in `skipped`. -/
theorem processWave_skipped_mono (flow : JobFlow) (jobCall : String → NodeCallRes) :
    ∀ cs st, ∀ m ∈ st.skipped, m ∈ (processWave flow jobCall st cs).skipped := by
  intro cs
  induction cs with
  | nil => intro st m hm; exact hm
  | cons n rest ih =>
    intro st m hm
    rw [processWave_cons]
    by_cases hb : (handleNode flow jobCall st n).2 = true
    · rw [if_pos hb]
      exact handleNode_skipped_mono flow jobCall st n m hm
    · rw [if_neg hb]
      exact ih _ m (handleNode_skipped_mono flow jobCall st n m hm)

/-- A wave adds to the failed set only nodes of the wave whose execution
returned `failed` or raised. -/
theorem processWave_failed_sub (flow : JobFlow) (jobCall : String → NodeCallRes) :
    ∀ cs st, ∀ m ∈ (processWave flow jobCall st cs).failed,
      m ∈ st.failed ∨
        (m ∈ cs ∧
          (nodeOutcome flow jobCall m = .returns "failed" ∨
           nodeOutcome flow jobCall m = .raises)) := by
  intro cs
  induction cs with
  | nil => intro st m hm; exact Or.inl hm
  | cons n rest ih =>
    intro st m hm
    rw [processWave_cons] at hm
    by_cases hb : (handleNode flow jobCall st n).2 = true
    · rw [if_pos hb] at hm
      rcases handleNode_failed_sub flow jobCall st n m hm with h | ⟨heq, hout⟩
      · exact Or.inl h
      · subst heq; exact Or.inr ⟨List.mem_cons_self m rest, hout⟩
    · rw [if_neg hb] at hm
      rcases ih _ m hm with h | h
      · rcases handleNode_failed_sub flow jobCall st n m h with h2 | ⟨heq, hout⟩
        · exact Or.inl h2
        · subst heq; exact Or.inr ⟨List.mem_cons_self m rest, hout⟩
      · exact Or.inr ⟨List.mem_cons_of_mem n h.1, h.2⟩

/-- Unfolding equation for one iteration of the `while pending:` loop. -/
theorem engineLoop_succ (flow : JobFlow) (jobCall : String → NodeCallRes)
    (sched : List String → List String) (fuel : Nat) (st : EngineState) :
    engineLoop flow jobCall sched (fuel+1) st =
      if st.pending.isEmpty then st
      else if (st.pending.filter (canExecute flow st)).isEmpty then
        { st with skipped := st.skipped ++ st.pending,
                  status := setStatusAll st.status st.pending "skipped" }
      else engineLoop flow jobCall sched fuel
        (processWave flow jobCall
          { st with invoked := st.invoked ++
              (st.pending.filter (canExecute flow st)).filter (hasJob flow) }
          (sched (st.pending.filter (canExecute flow st)))) := rfl

/-- Soundness of the failed set through the whole loop: a node is (still)
failed only if it was failed before or its execution returned `failed` or
raised. -/
theorem engineLoop_failed_sound (flow : JobFlow) (jobCall : String → NodeCallRes)
    (sched : List String → List String) :
    ∀ fuel st,
      (∀ m ∈ st.failed,
        nodeOutcome flow jobCall m = .returns "failed" ∨
        nodeOutcome flow jobCall m = .raises) →
      ∀ m ∈ (engineLoop flow jobCall sched fuel st).failed,
        nodeOutcome flow jobCall m = .returns "failed" ∨
        nodeOutcome flow jobCall m = .raises := by
  intro fuel
  induction fuel with
  | zero => intro st h m hm; exact h m hm
  | succ fuel ih =>
    intro st h m hm
    rw [engineLoop_succ] at hm
    by_cases hp : st.pending.isEmpty = true
    · rw [if_pos hp] at hm
      exact h m hm
    · rw [if_neg hp] at hm
      by_cases hr : (st.pending.filter (canExecute flow st)).isEmpty = true
      · rw [if_pos hr] at hm
        exact h m hm
      · rw [if_neg hr] at hm
        refine ih _ ?_ m hm
        intro m2 hm2
        rcases processWave_failed_sub flow jobCall _ _ m2 hm2 with h2 | ⟨_, h2⟩
        · exact h m2 h2
        · exact h2

/-- Two independent nodes; node A's job times out, node B's succeeds. -/
def timeoutNodeFlow : JobFlow :=
  ⟨[⟨"A", some 1, none⟩, ⟨"B", some 2, none⟩], [], "fail_fast", 5⟩

/-- Job outcomes for `timeoutNodeFlow`. -/
def timeoutNodeCall : String → NodeCallRes :=
  fun n => if n = "A" then .returns "timeout" else .returns "success"

/-- One failing node, `continue` strategy. -/
def failNodeFlow : JobFlow := ⟨[⟨"A", some 1, none⟩], [], "continue", 5⟩

/-- Job outcome for `failNodeFlow`. -/
def failNodeCall : String → NodeCallRes := fun _ => .returns "failed"

/-- Claim C2 (amended): a node enters the failed set only when its execution
returns status `failed` or raises; a terminal `timeout` is recorded in the
node-status map but does NOT put the node in the failed set, so a flow in
which one node times out and the rest succeed ends with an empty failed set
and overall FlowRun status `success`. -/
theorem failed_set_requires_failed_outcome :
    (∀ (flow : JobFlow) (jobCall : String → NodeCallRes)
        (sched : List String → List String),
        ∀ m ∈ (executeFlow flow jobCall sched).2.failed,
          nodeOutcome flow jobCall m = .returns "failed" ∨
          nodeOutcome flow jobCall m = .raises) ∧
    ((executeFlow timeoutNodeFlow timeoutNodeCall id).2.failed = [] ∧
     (executeFlow timeoutNodeFlow timeoutNodeCall id).2.status "A" = some "timeout" ∧
     (executeFlow timeoutNodeFlow timeoutNodeCall id).1 = "success") := by
  constructor
  · intro flow jobCall sched m hm
    refine engineLoop_failed_sound flow jobCall sched _ (initState flow) ?_ m hm
    intro m2 hm2
    exact absurd hm2 (List.not_mem_nil m2)
  · exact ⟨by decide, by decide, by decide⟩

/-- Claim C2 counterexample: in the flow where node A's job ends `timeout`
and node B's succeeds, the failed set is empty and the FlowRun status is
`success`, not `failed` — the claim's required conclusion is false here. -/
theorem timeout_not_failed_counterexample :
    (executeFlow timeoutNodeFlow timeoutNodeCall id).2.failed = [] ∧
    (executeFlow timeoutNodeFlow timeoutNodeCall id).2.status "A" = some "timeout" ∧
    (executeFlow timeoutNodeFlow timeoutNodeCall id).1 = "success" ∧
    ("success" : String) ≠ "failed" := by
  exact ⟨by decide, by decide, by decide, by decide⟩

/-- Claim C2 witness: the general half of the amended statement applied to a
concrete failing node. -/
theorem failed_set_requires_failed_outcome_witness :
    nodeOutcome failNodeFlow failNodeCall "A" = .returns "failed" ∨
    nodeOutcome failNodeFlow failNodeCall "A" = .raises :=
  failed_set_requires_failed_outcome.1 failNodeFlow failNodeCall id "A" (by decide)

/-- The handled node is the only possible addition to `executed`. -/
theorem handleNode_executed_sub (flow : JobFlow) (jobCall : String → NodeCallRes)
    (st : EngineState) (n : String) :
    ∀ m ∈ (handleNode flow jobCall st n).1.executed, m ∈ st.executed ∨ m = n := by
  intro m hm
  cases ho : nodeOutcome flow jobCall n with
  | raises =>
    rw [handleNode_raises flow jobCall st n ho] at hm
    simpa using List.mem_append.mp hm
  | returns s =>
    by_cases hs : s = "failed"
    · subst hs
      by_cases hff : flow.error_strategy = "fail_fast"
      · rw [handleNode_failed_ff flow jobCall st n ho hff] at hm
        exact Or.inl hm
      · by_cases hsd : flow.error_strategy = "skip_downstream"
        · rw [handleNode_failed_sd flow jobCall st n ho hff hsd] at hm
          simpa using List.mem_append.mp hm
        · rw [handleNode_failed_other flow jobCall st n ho hff hsd] at hm
          simpa using List.mem_append.mp hm
    · rw [handleNode_returns_ok flow jobCall st n s ho hs] at hm
      simpa using List.mem_append.mp hm

/-- A pending node other than the handled one stays pending or becomes
skipped. -/
theorem handleNode_pend_or_skip (flow : JobFlow) (jobCall : String → NodeCallRes)
    (st : EngineState) (n : String) (m : String) (hm : m ∈ st.pending)
    (hne : m ≠ n) :
    m ∈ (handleNode flow jobCall st n).1.pending ∨
    m ∈ (handleNode flow jobCall st n).1.skipped := by
  cases ho : nodeOutcome flow jobCall n with
  | raises =>
    rw [handleNode_raises flow jobCall st n ho]
    exact Or.inl ((List.mem_erase_of_ne hne).mpr hm)
  | returns s =>
    by_cases hs : s = "failed"
    · subst hs
      by_cases hff : flow.error_strategy = "fail_fast"
      · rw [handleNode_failed_ff flow jobCall st n ho hff]
        refine Or.inr (List.mem_append_right _ ?_)
        exact List.mem_filter.mpr ⟨hm, by simp [hne]⟩
      · by_cases hsd : flow.error_strategy = "skip_downstream"
        · rw [handleNode_failed_sd flow jobCall st n ho hff hsd]
          by_cases hds : (downstreamOf flow n).contains m = true
          · exact Or.inr (List.mem_append_right _ ((contains_true_iff _ _).mp hds))
          · refine Or.inl ((List.mem_erase_of_ne hne).mpr ?_)
            refine List.mem_filter.mpr ⟨hm, ?_⟩
            have hf : (downstreamOf flow n).contains m = false := by
              cases hc : (downstreamOf flow n).contains m
              · rfl
              · exact absurd hc hds
            show (!(downstreamOf flow n).contains m) = true
            rw [hf]
            rfl
        · rw [handleNode_failed_other flow jobCall st n ho hff hsd]
          exact Or.inl ((List.mem_erase_of_ne hne).mpr hm)
    · rw [handleNode_returns_ok flow jobCall st n s ho hs]
      exact Or.inl ((List.mem_erase_of_ne hne).mpr hm)

/-- A wave adds to `executed` only nodes of the wave. -/
theorem processWave_executed_sub (flow : JobFlow) (jobCall : String → NodeCallRes) :
    ∀ cs st, ∀ m ∈ (processWave flow jobCall st cs).executed,
      m ∈ st.executed ∨ m ∈ cs := by
  intro cs
  induction cs with
  | nil => intro st m hm; exact Or.inl hm
  | cons n rest ih =>
    intro st m hm
    rw [processWave_cons] at hm
    by_cases hb : (handleNode flow jobCall st n).2 = true
    · rw [if_pos hb] at hm
      rcases handleNode_executed_sub flow jobCall st n m hm with h | h
      · exact Or.inl h
      · exact Or.inr (h ▸ List.mem_cons_self m rest)
    · rw [if_neg hb] at hm
      rcases ih _ m hm with h | h
      · rcases handleNode_executed_sub flow jobCall st n m h with h2 | h2
        · exact Or.inl h2
        · exact Or.inr (h2 ▸ List.mem_cons_self m rest)
      · exact Or.inr (List.mem_cons_of_mem n h)

/-- A pending node outside the wave ends the wave pending or skipped. -/
theorem processWave_pend_or_skip (flow : JobFlow) (jobCall : String → NodeCallRes) :
    ∀ cs st m, m ∈ st.pending → m ∉ cs →
      m ∈ (processWave flow jobCall st cs).pending ∨
      m ∈ (processWave flow jobCall st cs).skipped := by
  intro cs
  induction cs with
  | nil => intro st m hm _; exact Or.inl hm
  | cons n rest ih =>
    intro st m hm hcs
    have hne : m ≠ n := fun h => hcs (h ▸ List.mem_cons_self n rest)
    have hrest : m ∉ rest := fun h => hcs (List.mem_cons_of_mem n h)
    rw [processWave_cons]
    by_cases hb : (handleNode flow jobCall st n).2 = true
    · rw [if_pos hb]
      exact handleNode_pend_or_skip flow jobCall st n m hm hne
    · rw [if_neg hb]
      rcases handleNode_pend_or_skip flow jobCall st n m hm hne with h | h
      · exact ih _ m h hrest
      · exact Or.inr (processWave_skipped_mono flow jobCall rest _ m h)

/-- Loop invariant for a set `B` of node ids that can never become ready:
no member of `B` is ever executed, failed or invoked, the executed and
pending sets stay within the flow's node ids, and every member of `B` that
is a real node is still pending or already skipped. -/
structure BlockedInv (flow : JobFlow) (B : List String) (st : EngineState) : Prop where
  executed_sub : ∀ m ∈ st.executed, m ∈ nodeIds flow
  pending_sub : ∀ m ∈ st.pending, m ∈ nodeIds flow
  not_executed : ∀ m ∈ B, m ∉ st.executed
  not_failed : ∀ m ∈ B, m ∉ st.failed
  not_invoked : ∀ m ∈ B, m ∉ st.invoked
  tracked : ∀ m ∈ B, m ∈ nodeIds flow → m ∈ st.pending ∨ m ∈ st.skipped

/-- `B` is blocked: in any state whose executed set stays within the node
ids and avoids `B`, no member of `B` passes `_can_execute`. -/
def BlockedFor (flow : JobFlow) (B : List String) : Prop :=
  ∀ st : EngineState, (∀ m ∈ st.executed, m ∈ nodeIds flow) →
    (∀ m ∈ B, m ∉ st.executed) →
    ∀ n ∈ B, canExecute flow st n = false

/-- Through a whole wave the blocked invariant is preserved, provided the
wave consists of flow nodes outside `B`. -/
theorem processWave_blocked (flow : JobFlow) (jobCall : String → NodeCallRes)
    (B : List String) (cs : List String) (st : EngineState)
    (inv : BlockedInv flow B st)
    (hcs1 : ∀ m ∈ cs, m ∈ nodeIds flow) (hcs2 : ∀ m ∈ cs, m ∉ B) :
    BlockedInv flow B (processWave flow jobCall st cs) := by
  constructor
  · intro m hm
    rcases processWave_executed_sub flow jobCall cs st m hm with h | h
    · exact inv.executed_sub m h
    · exact hcs1 m h
  · intro m hm
    exact inv.pending_sub m (processWave_pending_mem flow jobCall cs st m hm)
  · intro m hmB hm
    rcases processWave_executed_sub flow jobCall cs st m hm with h | h
    · exact inv.not_executed m hmB h
    · exact hcs2 m h hmB
  · intro m hmB hm
    rcases processWave_failed_sub flow jobCall cs st m hm with h | ⟨h, _⟩
    · exact inv.not_failed m hmB h
    · exact hcs2 m h hmB
  · intro m hmB
    rw [processWave_invoked_eq]
    exact inv.not_invoked m hmB
  · intro m hmB hmid
    rcases inv.tracked m hmB hmid with h | h
    · exact processWave_pend_or_skip flow jobCall cs st m h
        (fun hc => hcs2 m hc hmB)
    · exact Or.inr (processWave_skipped_mono flow jobCall cs st m h)

/-- Main loop theorem for a blocked set: with a permutation schedule and
enough fuel, the loop ends with the invariant intact and every blocked node
that is a real node of the flow marked skipped. -/
theorem engineLoop_blocked (flow : JobFlow) (jobCall : String → NodeCallRes)
    (sched : List String → List String) (B : List String)
    (hsch : SchedPerm sched) (hblock : BlockedFor flow B) :
    ∀ fuel st, BlockedInv flow B st → st.pending.length < fuel →
      BlockedInv flow B (engineLoop flow jobCall sched fuel st) ∧
      ∀ m ∈ B, m ∈ nodeIds flow →
        m ∈ (engineLoop flow jobCall sched fuel st).skipped := by
  intro fuel
  induction fuel with
  | zero => intro st _ hlen; omega
  | succ fuel ih =>
    intro st inv hlen
    rw [engineLoop_succ]
    by_cases hp : st.pending.isEmpty = true
    · rw [if_pos hp]
      refine ⟨inv, ?_⟩
      intro m hmB hmid
      rcases inv.tracked m hmB hmid with h | h
      · rw [List.isEmpty_iff.mp hp] at h
        exact absurd h (List.not_mem_nil m)
      · exact h
    · rw [if_neg hp]
      by_cases hr : (st.pending.filter (canExecute flow st)).isEmpty = true
      · rw [if_pos hr]
        constructor
        · exact ⟨inv.executed_sub, inv.pending_sub, inv.not_executed,
            inv.not_failed, inv.not_invoked,
            fun m hmB hmid => (inv.tracked m hmB hmid).elim Or.inl
              (fun h => Or.inr (List.mem_append_left _ h))⟩
        · intro m hmB hmid
          rcases inv.tracked m hmB hmid with h | h
          · exact List.mem_append_right _ h
          · exact List.mem_append_left _ h
      · rw [if_neg hr]
        have hreadyMem : ∀ m ∈ st.pending.filter (canExecute flow st),
            m ∈ st.pending := fun m h => (List.mem_filter.mp h).1
        have hreadyCan : ∀ m ∈ st.pending.filter (canExecute flow st),
            canExecute flow st m = true := fun m h => (List.mem_filter.mp h).2
        have hreadyB : ∀ m ∈ st.pending.filter (canExecute flow st), m ∉ B := by
          intro m h hmB
          have hc := hblock st inv.executed_sub inv.not_executed m hmB
          rw [hreadyCan m h] at hc
          exact Bool.noConfusion hc
        have hcsmem : ∀ m ∈ sched (st.pending.filter (canExecute flow st)),
            m ∈ st.pending.filter (canExecute flow st) :=
          fun m h => (hsch _).mem_iff.mp h
        have inv1 : BlockedInv flow B
            { st with invoked := st.invoked ++
                (st.pending.filter (canExecute flow st)).filter (hasJob flow) } := by
          refine ⟨inv.executed_sub, inv.pending_sub, inv.not_executed,
            inv.not_failed, ?_, inv.tracked⟩
          intro m hmB hm
          rcases List.mem_append.mp hm with h | h
          · exact inv.not_invoked m hmB h
          · exact hreadyB m (List.mem_of_mem_filter h) hmB
        have inv2 := processWave_blocked flow jobCall B
            (sched (st.pending.filter (canExecute flow st))) _ inv1
            (fun m h => inv.pending_sub m (hreadyMem m (hcsmem m h)))
            (fun m h => hreadyB m (hcsmem m h))
        have hrne : st.pending.filter (canExecute flow st) ≠ [] :=
          fun h => hr (by rw [h]; rfl)
        have hcsne : sched (st.pending.filter (canExecute flow st)) ≠ [] := by
          intro h
          apply hrne
          have hperm := hsch (st.pending.filter (canExecute flow st))
          rw [h] at hperm
          exact (List.Perm.nil_eq hperm).symm
        obtain ⟨n0, rest0, hcs0⟩ := List.exists_cons_of_ne_nil hcsne
        have hn0 : n0 ∈ st.pending := by
          apply hreadyMem
          apply hcsmem
          rw [hcs0]
          exact List.mem_cons_self n0 rest0
        have hlt : (processWave flow jobCall
            { st with invoked := st.invoked ++
                (st.pending.filter (canExecute flow st)).filter (hasJob flow) }
            (sched (st.pending.filter (canExecute flow st)))).pending.length
              < st.pending.length := by
          rw [hcs0]
          exact processWave_pending_length_lt flow jobCall _ n0 rest0 hn0
        exact ih _ inv2 (by omega)

/-- A failing dependency check means `_can_execute` rejects the node. -/
theorem canExecute_false_of_depsOk_false (flow : JobFlow) (st : EngineState)
    (n : String) (hno : depsOk flow st n = false) :
    canExecute flow st n = false := by
  unfold canExecute
  cases hsk : st.skipped.contains n
  · cases hfn : findNode flow n with
    | none => rfl
    | some node => rw [hno]; rfl
  · rfl

/-- `_can_execute` rejects a node one of whose dependencies is not executed. -/
theorem canExecute_false_of_dep (flow : JobFlow) (st : EngineState)
    (n d : String) (hd : d ∈ depsOf flow n) (hdex : d ∉ st.executed) :
    canExecute flow st n = false := by
  refine canExecute_false_of_depsOk_false flow st n ?_
  rw [Bool.eq_false_iff]
  intro hall
  rw [depsOk, List.all_eq_true] at hall
  have h2 := hall d hd
  rw [Bool.and_eq_true] at h2
  exact hdex ((contains_true_iff _ _).mp h2.1)

/-- `_can_execute` rejects a node whose condition is an exception-raising
expression, in every state. -/
theorem canExecute_false_of_exn_cond (flow : JobFlow) (st : EngineState)
    (n : String) (node : FlowNode) (hfn : findNode flow n = some node)
    (hcond : node.condition = some (Cond.expression CondExprRes.exn)) :
    canExecute flow st n = false := by
  unfold canExecute
  cases hsk : st.skipped.contains n
  · rw [hfn]
    cases hall : depsOk flow st n
    · rfl
    · show (match node.condition with
        | none => true
        | some c => evalCondition st c) = false
      rw [hcond]
      rfl
  · rfl

/-- The blocked invariant holds at the starting state. -/
theorem initState_blockedInv (flow : JobFlow) (B : List String) :
    BlockedInv flow B (initState flow) := by
  refine ⟨?_, ?_, ?_, ?_, ?_, ?_⟩
  · intro m hm; exact absurd hm (List.not_mem_nil m)
  · intro m hm; exact hm
  · intro m _ hm; exact absurd hm (List.not_mem_nil m)
  · intro m _ hm; exact absurd hm (List.not_mem_nil m)
  · intro m _ hm; exact absurd hm (List.not_mem_nil m)
  · intro m _ hmid; exact Or.inl hmid

/-- The default fuel of `executeFlow` exceeds the initial pending size. -/
theorem initState_pending_lt (flow : JobFlow) :
    (initState flow).pending.length < flow.nodes.length + 1 := by
  have h1 : (nodeIds flow).length ≤ (flow.nodes.map FlowNode.id).length :=
    (List.dedup_sublist _).length_le
  have h2 : (flow.nodes.map FlowNode.id).length = flow.nodes.length :=
    List.length_map _ _
  show (nodeIds flow).length < flow.nodes.length + 1
  omega

/-- The identity completion order is a valid schedule. -/
theorem schedPerm_id : SchedPerm id := fun l => List.Perm.refl l

/-- Claim C1 (amended): the engine performs no DAG validation and always
creates a FlowRun.  A node `n` whose dependencies are cut — every chain into
it ends in a dangling reference or stays inside a set `B` of mutually
dependent nodes (a cycle) — is never executed, its Job is never invoked, and
it is marked skipped by the time the run completes; no configuration error
is raised (the function is total and returns the completed FlowRun). -/
theorem no_dag_validation (flow : JobFlow) (jobCall : String → NodeCallRes)
    (sched : List String → List String) (hsch : SchedPerm sched)
    (B : List String)
    (hB : ∀ n ∈ B, ∃ d ∈ depsOf flow n, d ∉ nodeIds flow ∨ d ∈ B)
    (n : String) (hn : n ∈ B) (hnid : n ∈ nodeIds flow) :
    n ∈ (executeFlow flow jobCall sched).2.skipped ∧
    n ∉ (executeFlow flow jobCall sched).2.executed ∧
    n ∉ (executeFlow flow jobCall sched).2.invoked := by
  have hblock : BlockedFor flow B := by
    intro st hsub hnex n2 hn2
    obtain ⟨d, hd, hcase⟩ := hB n2 hn2
    refine canExecute_false_of_dep flow st n2 d hd ?_
    cases hcase with
    | inl h => exact fun hmem => h (hsub d hmem)
    | inr h => exact hnex d h
  obtain ⟨inv, hskip⟩ := engineLoop_blocked flow jobCall sched B hsch hblock
    (flow.nodes.length + 1) (initState flow) (initState_blockedInv flow B)
    (initState_pending_lt flow)
  exact ⟨hskip n hn hnid, inv.not_executed n hn, inv.not_invoked n hn⟩

/-- A flow whose single edge dangles: source `X` is not a node. -/
def danglingFlow : JobFlow :=
  ⟨[⟨"A", some 1, none⟩], [⟨"X", "A"⟩], "continue", 5⟩

/-- A two-node dependency cycle. -/
def cyclicFlow : JobFlow :=
  ⟨[⟨"A", some 1, none⟩, ⟨"B", some 2, none⟩],
   [⟨"A", "B"⟩, ⟨"B", "A"⟩], "continue", 5⟩

/-- Claim C1 counterexample: with a dangling edge (and likewise with a
cycle) `execute` raises no configuration error and *does* produce a FlowRun:
the run completes normally with the unreachable nodes skipped and status
`partial`. -/
theorem dag_validation_claim_counterexample :
    (executeFlow danglingFlow (fun _ => .returns "success") id).1 = "partial" ∧
    (executeFlow danglingFlow (fun _ => .returns "success") id).2.skipped = ["A"] ∧
    (executeFlow danglingFlow (fun _ => .returns "success") id).2.failed = [] ∧
    (executeFlow cyclicFlow (fun _ => .returns "success") id).1 = "partial" ∧
    (executeFlow cyclicFlow (fun _ => .returns "success") id).2.skipped = ["A", "B"] :=
  ⟨by decide, by decide, by decide, by decide, by decide⟩

/-- Claim C1 witness: the amended statement at the dangling-edge flow. -/
theorem no_dag_validation_witness :
    "A" ∈ (executeFlow danglingFlow (fun _ => .returns "success") id).2.skipped ∧
    "A" ∉ (executeFlow danglingFlow (fun _ => .returns "success") id).2.executed ∧
    "A" ∉ (executeFlow danglingFlow (fun _ => .returns "success") id).2.invoked :=
  no_dag_validation danglingFlow (fun _ => .returns "success") id schedPerm_id
    ["A"] (by decide) "A" (by decide) (by decide)

/-- Claim C8 (amended): an exception raised while evaluating a node's
`expression` condition makes the condition evaluate to `False` (the
`try/except` in `_evaluate_condition`), so the node is never ready: it is
never added to the failed set, never executed, never invoked, and ends
marked skipped once no ready nodes remain.  The exception neither aborts
the engine nor fails the node. -/
theorem condition_exception_skips_node (flow : JobFlow)
    (jobCall : String → NodeCallRes) (sched : List String → List String)
    (hsch : SchedPerm sched) (n : String) (node : FlowNode)
    (hfn : findNode flow n = some node)
    (hcond : node.condition = some (Cond.expression CondExprRes.exn))
    (hnid : n ∈ nodeIds flow) :
    n ∈ (executeFlow flow jobCall sched).2.skipped ∧
    n ∉ (executeFlow flow jobCall sched).2.failed ∧
    n ∉ (executeFlow flow jobCall sched).2.executed ∧
    n ∉ (executeFlow flow jobCall sched).2.invoked := by
  have hblock : BlockedFor flow [n] := by
    intro st _ _ n2 hn2
    have : n2 = n := by simpa using hn2
    subst this
    exact canExecute_false_of_exn_cond flow st n2 node hfn hcond
  obtain ⟨inv, hskip⟩ := engineLoop_blocked flow jobCall sched [n] hsch hblock
    (flow.nodes.length + 1) (initState flow) (initState_blockedInv flow [n])
    (initState_pending_lt flow)
  have hmem : n ∈ ([n] : List String) := List.mem_cons_self n []
  exact ⟨hskip n hmem hnid, inv.not_failed n hmem,
    inv.not_executed n hmem, inv.not_invoked n hmem⟩

/-- A single node whose condition expression raises. -/
def condExnFlow : JobFlow :=
  ⟨[⟨"A", some 1, some (.expression .exn)⟩], [], "fail_fast", 5⟩

/-- Claim C8 counterexample: a node whose condition expression raises is
silently converted to `skipped`: the failed set stays empty, the node's
status is `skipped`, and the flow ends `partial` — not the node failure the
claim requires. -/
theorem condition_exception_claim_counterexample :
    (executeFlow condExnFlow (fun _ => .returns "success") id).2.failed = [] ∧
    (executeFlow condExnFlow (fun _ => .returns "success") id).2.status "A"
      = some "skipped" ∧
    (executeFlow condExnFlow (fun _ => .returns "success") id).1 = "partial" ∧
    "A" ∈ (executeFlow condExnFlow (fun _ => .returns "success") id).2.skipped :=
  ⟨by decide, by decide, by decide, by decide⟩

/-- Claim C8 witness: the amended statement at the concrete flow. -/
theorem condition_exception_skips_node_witness :
    "A" ∈ (executeFlow condExnFlow (fun _ => .returns "success") id).2.skipped ∧
    "A" ∉ (executeFlow condExnFlow (fun _ => .returns "success") id).2.failed ∧
    "A" ∉ (executeFlow condExnFlow (fun _ => .returns "success") id).2.executed ∧
    "A" ∉ (executeFlow condExnFlow (fun _ => .returns "success") id).2.invoked :=
  condition_exception_skips_node condExnFlow (fun _ => .returns "success") id
    schedPerm_id "A" ⟨"A", some 1, some (.expression .exn)⟩ (by decide) rfl
    (by decide)

/-- Two independent nodes, `fail_fast`, A's job fails and B's would
succeed (both are submitted in the same wave). -/
def failFastPairFlow : JobFlow :=
  ⟨[⟨"A", some 1, none⟩, ⟨"B", some 2, none⟩], [], "fail_fast", 5⟩

/-- Job outcomes for `failFastPairFlow`. -/
def failFastPairCall : String → NodeCallRes :=
  fun n => if n = "A" then .returns "failed" else .returns "success"

/-- The spec's two-node scenario: A → B, `fail_fast`, A fails permanently. -/
def failFastChainFlow : JobFlow :=
  ⟨[⟨"A", some 1, none⟩, ⟨"B", some 2, none⟩], [⟨"A", "B"⟩], "fail_fast", 5⟩

/-- Job outcomes for `failFastChainFlow`. -/
def failFastChainCall : String → NodeCallRes :=
  fun n => if n = "A" then .returns "failed" else .returns "success"

/-- Claim C5 (amended): when a node's result is `failed` under `fail_fast`,
every other node still in the pending set — including wave peers whose jobs
were already submitted — is marked skipped with status `skipped`, the
pending set is cleared, and the remaining completions of the wave are
dropped (processing the wave equals processing only the failed node).  In
the A→B scenario the run is `failed`, B is `skipped` and B's job is never
invoked. -/
theorem fail_fast_break_semantics :
    (∀ (flow : JobFlow) (jobCall : String → NodeCallRes) (st : EngineState)
        (n : String) (rest : List String),
        flow.error_strategy = "fail_fast" →
        nodeOutcome flow jobCall n = .returns "failed" →
        (processWave flow jobCall st (n :: rest)).pending = [] ∧
        processWave flow jobCall st (n :: rest) =
          processWave flow jobCall st [n] ∧
        (∀ p ∈ st.pending, p ≠ n →
          p ∈ (processWave flow jobCall st (n :: rest)).skipped ∧
          (processWave flow jobCall st (n :: rest)).status p = some "skipped")) ∧
    ((executeFlow failFastChainFlow failFastChainCall id).1 = "failed" ∧
     (executeFlow failFastChainFlow failFastChainCall id).2.status "B"
       = some "skipped" ∧
     "B" ∈ (executeFlow failFastChainFlow failFastChainCall id).2.skipped ∧
     "B" ∉ (executeFlow failFastChainFlow failFastChainCall id).2.invoked) := by
  constructor
  · intro flow jobCall st n rest hff ho
    have hstep := handleNode_failed_ff flow jobCall st n ho hff
    have hbrk : (handleNode flow jobCall st n).2 = true := by rw [hstep]
    have heq : processWave flow jobCall st (n :: rest)
        = (handleNode flow jobCall st n).1 := by
      rw [processWave_cons, if_pos hbrk]
    refine ⟨?_, ?_, ?_⟩
    · rw [heq, hstep]
    · rw [heq, processWave_cons, if_pos hbrk]
    · intro p hp hpn
      constructor
      · rw [heq, hstep]
        exact List.mem_append_right _ (List.mem_filter.mpr ⟨hp, by simp [hpn]⟩)
      · rw [heq, hstep]
        show (if (st.pending.filter (fun q => q != n)).contains p then some "skipped"
              else setStatus st.status n "failed" p) = some "skipped"
        rw [if_pos ((contains_true_iff _ _).mpr
          (List.mem_filter.mpr ⟨hp, by simp [hpn]⟩))]
  · exact ⟨by decide, by decide, by decide, by decide⟩

/-- Claim C5 counterexample: with two *independent* nodes under `fail_fast`
where A's failure completes first, B — whose job was already submitted in
the same wave — is marked `skipped` and its successful result is discarded:
a node whose Job *was* invoked ends in the skipped set, contradicting the
claim's split between already-running nodes (terminal status recorded) and
not-yet-started ones (skipped, job never invoked). -/
theorem fail_fast_claim_counterexample :
    "B" ∈ (executeFlow failFastPairFlow failFastPairCall id).2.invoked ∧
    (executeFlow failFastPairFlow failFastPairCall id).2.status "B"
      = some "skipped" ∧
    "B" ∈ (executeFlow failFastPairFlow failFastPairCall id).2.skipped ∧
    (executeFlow failFastPairFlow failFastPairCall id).1 = "failed" :=
  ⟨by decide, by decide, by decide, by decide⟩

/-- Claim C5 witness: the general half of the amended statement at the
independent-pair flow, wave order A then B. -/
theorem fail_fast_break_semantics_witness :
    (processWave failFastPairFlow failFastPairCall (initState failFastPairFlow)
        ("A" :: ["B"])).pending = [] ∧
    "B" ∈ (processWave failFastPairFlow failFastPairCall
        (initState failFastPairFlow) ("A" :: ["B"])).skipped := by
  have h := fail_fast_break_semantics.1 failFastPairFlow failFastPairCall
    (initState failFastPairFlow) "A" ["B"] rfl (by decide)
  exact ⟨h.1, (h.2.2 "B" (by decide) (by decide)).1⟩

/-- `ReadyNodes` as the specification words it: the pending nodes whose
dependencies are all in the executed set, excluding nodes already in the
skipped set, and — under the `skip_downstream` strategy only — excluding
nodes any of whose dependencies are in the failed set.  This definition
follows the spec text, for comparison with the source's `_can_execute`. -/
def specReadyNodes (flow : JobFlow) (st : EngineState) : List String :=
  st.pending.filter fun n =>
    (depsOf flow n).all (fun d => st.executed.contains d) &&
    !st.skipped.contains n &&
    !(flow.error_strategy == "skip_downstream" &&
        (depsOf flow n).any (fun d => st.failed.contains d))

/-- `ReadyNodes` amended to the source semantics: additionally require the
node to exist in the node map and its condition (when present) to evaluate
to true in the current state. -/
def specReadyNodesCond (flow : JobFlow) (st : EngineState) : List String :=
  st.pending.filter fun n =>
    (depsOf flow n).all (fun d => st.executed.contains d) &&
    !st.skipped.contains n &&
    !(flow.error_strategy == "skip_downstream" &&
        (depsOf flow n).any (fun d => st.failed.contains d)) &&
    (match findNode flow n with
     | none => false
     | some node =>
       match node.condition with
       | none => true
       | some c => evalCondition st c)

/-- Splitting a per-element conjunction out of a `List.all`. -/
theorem all_and_not_split (l : List String) (f g : String → Bool) (s : Bool) :
    (l.all fun d => f d && !(g d && s)) = (l.all f && !(s && l.any g)) := by
  induction l with
  | nil => simp
  | cons d rest ih =>
    simp only [List.all_cons, List.any_cons]
    rw [ih]
    cases f d <;> cases g d <;> cases s <;> cases rest.all f <;>
      cases rest.any g <;> rfl

/-- The dependency check of `_can_execute`, in the spec's shape. -/
theorem depsOk_split (flow : JobFlow) (st : EngineState) (n : String) :
    depsOk flow st n =
      ((depsOf flow n).all (fun d => st.executed.contains d) &&
       !(flow.error_strategy == "skip_downstream" &&
           (depsOf flow n).any (fun d => st.failed.contains d))) :=
  all_and_not_split (depsOf flow n) _ _ _

/-- Pointwise agreement of `_can_execute` with the amended spec predicate. -/
theorem canExecute_eq_specPred (flow : JobFlow) (st : EngineState) (n : String) :
    canExecute flow st n =
      ((depsOf flow n).all (fun d => st.executed.contains d) &&
       !st.skipped.contains n &&
       !(flow.error_strategy == "skip_downstream" &&
           (depsOf flow n).any (fun d => st.failed.contains d)) &&
       (match findNode flow n with
        | none => false
        | some node =>
          match node.condition with
          | none => true
          | some c => evalCondition st c)) := by
  unfold canExecute
  cases hsk : st.skipped.contains n
  · cases hfn : findNode flow n with
    | none => simp
    | some node =>
      have hsplit := depsOk_split flow st n
      cases hdo : depsOk flow st n
      · rw [hdo] at hsplit
        simp only [Bool.not_false, Bool.and_true, Bool.true_and]
        rw [← hsplit]
        simp
      · rw [hdo] at hsplit
        simp only [Bool.not_false, Bool.and_true, Bool.true_and]
        rw [← hsplit]
        simp
  · simp

/-- The ready list computed by the loop equals the amended spec's
`ReadyNodes`. -/
theorem ready_nodes_eq_spec_cond (flow : JobFlow) (st : EngineState) :
    st.pending.filter (canExecute flow st) = specReadyNodesCond flow st := by
  unfold specReadyNodesCond
  exact List.filter_congr (fun n _ => canExecute_eq_specPred flow st n)

/-- Claim C6 (amended): the ready set computed in each iteration is exactly
the spec's `ReadyNodes` formula *plus* two exclusions the spec omits — a
node must exist in the node map and its condition (when present) must
currently evaluate to true (an exception-raising expression evaluates
false).  Whenever this ready set is empty while pending is non-empty, the
loop marks every remaining pending node `skipped` and stops. -/
theorem ready_nodes_semantics :
    (∀ (flow : JobFlow) (st : EngineState),
        st.pending.filter (canExecute flow st) = specReadyNodesCond flow st) ∧
    (∀ (flow : JobFlow) (jobCall : String → NodeCallRes)
        (sched : List String → List String) (fuel : Nat) (st : EngineState),
        st.pending ≠ [] →
        st.pending.filter (canExecute flow st) = [] →
        engineLoop flow jobCall sched (fuel+1) st =
          { st with skipped := st.skipped ++ st.pending,
                    status := setStatusAll st.status st.pending "skipped" }) := by
  constructor
  · exact ready_nodes_eq_spec_cond
  · intro flow jobCall sched fuel st hpne hready
    rw [engineLoop_succ]
    rw [if_neg (fun h => hpne (List.isEmpty_iff.mp h)),
        if_pos (by rw [hready]; rfl)]

/-- Claim C6 counterexample: for a pending node with an exception-raising
condition, the loop's ready set is empty although the claim's formula
(deps executed, not skipped, no failed dep under `skip_downstream`)
declares the node ready. -/
theorem ready_nodes_claim_counterexample :
    (initState condExnFlow).pending.filter
        (canExecute condExnFlow (initState condExnFlow)) = [] ∧
    specReadyNodes condExnFlow (initState condExnFlow) = ["A"] :=
  ⟨by decide, by decide⟩

/-- Claim C6 witness: the ready-empty branch of the amended statement at the
concrete flow. -/
theorem ready_nodes_semantics_witness :
    engineLoop condExnFlow (fun _ => .returns "success") id 1
        (initState condExnFlow) =
      { initState condExnFlow with
          skipped := (initState condExnFlow).skipped ++
            (initState condExnFlow).pending,
          status := setStatusAll (initState condExnFlow).status
            (initState condExnFlow).pending "skipped" } :=
  ready_nodes_semantics.2 condExnFlow (fun _ => .returns "success") id 0
    (initState condExnFlow) (by decide) (by decide)

/-- Every non-empty list has an element minimising a natural measure. -/
theorem exists_min_measure (f : String → Nat) :
    ∀ l : List String, l ≠ [] → ∃ n ∈ l, ∀ m ∈ l, f n ≤ f m := by
  intro l
  induction l with
  | nil => intro hl; exact absurd rfl hl
  | cons a rest ih =>
    intro _
    by_cases hrne : rest = []
    · refine ⟨a, List.mem_cons_self a rest, ?_⟩
      intro m hm
      rcases List.mem_cons.mp hm with hma | hmr
      · rw [hma]
      · rw [hrne] at hmr
        exact absurd hmr (List.not_mem_nil m)
    · obtain ⟨n, hn, hmin⟩ := ih hrne
      rcases Nat.le_total (f a) (f n) with h | h
      · refine ⟨a, List.mem_cons_self a rest, ?_⟩
        intro m hm
        rcases List.mem_cons.mp hm with hma | hmr
        · rw [hma]
        · exact le_trans h (hmin m hmr)
      · refine ⟨n, List.mem_cons_of_mem a hn, ?_⟩
        intro m hm
        rcases List.mem_cons.mp hm with hma | hmr
        · rw [hma]; exact h
        · exact hmin m hmr

/-- Every node id has a node in the dict (`self.nodes[node_id]`). -/
theorem findNode_some_of_mem (flow : JobFlow) (n : String)
    (hn : n ∈ nodeIds flow) :
    ∃ node, findNode flow n = some node ∧ node ∈ flow.nodes ∧ node.id = n := by
  have h1 : n ∈ flow.nodes.map FlowNode.id := List.mem_dedup.mp hn
  obtain ⟨node, hmem, hid⟩ := List.mem_map.mp h1
  have h2 : (flow.nodes.reverse.find? (fun m => m.id == n)).isSome := by
    rw [List.find?_isSome]
    exact ⟨node, List.mem_reverse.mpr hmem, by rw [hid]; exact beq_self_eq_true n⟩
  obtain ⟨nodef, hfind⟩ := Option.isSome_iff_exists.mp h2
  refine ⟨nodef, hfind, List.mem_reverse.mp (List.mem_of_find?_eq_some hfind), ?_⟩
  have hbeq := List.find?_some hfind
  have hbeq2 : (nodef.id == n) = true := hbeq
  exact eq_of_beq hbeq2

/-- Every dependency comes from an edge of the flow. -/
theorem depsOf_edge (flow : JobFlow) (n d : String) (hd : d ∈ depsOf flow n) :
    ∃ e ∈ flow.edges, e.source = d ∧ e.target = n := by
  unfold depsOf at hd
  obtain ⟨e, he, hsrc⟩ := List.mem_map.mp hd
  exact ⟨e, (List.mem_filter.mp he).1, hsrc,
    eq_of_beq (List.mem_filter.mp he).2⟩

/-- The dependency check passes when all dependencies are executed and
nothing has failed. -/
theorem depsOk_true_intro (flow : JobFlow) (st : EngineState) (n : String)
    (hex : ∀ d ∈ depsOf flow n, d ∈ st.executed) (hfailed : st.failed = []) :
    depsOk flow st n = true := by
  rw [depsOk, List.all_eq_true]
  intro d hd
  rw [Bool.and_eq_true]
  refine ⟨(contains_true_iff _ _).mpr (hex d hd), ?_⟩
  rw [hfailed]
  rfl

/-- `_can_execute` accepts a node that is not skipped, exists, passes the
dependency check and has no condition. -/
theorem canExecute_true_intro (flow : JobFlow) (st : EngineState) (n : String)
    (node : FlowNode) (hsk : st.skipped.contains n = false)
    (hfn : findNode flow n = some node) (hdo : depsOk flow st n = true)
    (hcond : node.condition = none) :
    canExecute flow st n = true := by
  have h1 : canExecute flow st n =
      if depsOk flow st n then
        (match node.condition with
         | none => true
         | some c => evalCondition st c)
      else false := by
    unfold canExecute
    rw [hsk, hfn]
    rfl
  rw [h1, hdo, hcond]
  rfl

/-- Loop invariant of an all-success execution: no failures, no skips,
every executed node recorded `success`, and the pending set is exactly the
unprocessed part of the node ids. -/
structure SuccessInv (flow : JobFlow) (st : EngineState) : Prop where
  pending_sub : ∀ m ∈ st.pending, m ∈ nodeIds flow
  cover : ∀ m ∈ nodeIds flow, m ∈ st.executed ∨ m ∈ st.pending
  executed_success : ∀ m ∈ st.executed, st.status m = some "success"
  failed_nil : st.failed = []
  skipped_nil : st.skipped = []

/-- A wave in which every processed node returns `success` preserves the
all-success invariant. -/
theorem processWave_success_inv (flow : JobFlow) (jobCall : String → NodeCallRes) :
    ∀ cs st, SuccessInv flow st →
      (∀ m ∈ cs, nodeOutcome flow jobCall m = .returns "success") →
      SuccessInv flow (processWave flow jobCall st cs) := by
  intro cs
  induction cs with
  | nil => intro st inv _; exact inv
  | cons n rest ih =>
    intro st inv hcs
    have ho := hcs n (List.mem_cons_self n rest)
    have hstep := handleNode_returns_ok flow jobCall st n "success" ho (by decide)
    have hb : (handleNode flow jobCall st n).2 = false := by rw [hstep]
    rw [processWave_cons, if_neg (by rw [hb]; exact Bool.false_ne_true)]
    refine ih _ ?_ (fun m hm => hcs m (List.mem_cons_of_mem n hm))
    rw [hstep]
    refine ⟨?_, ?_, ?_, ?_, ?_⟩
    · intro m hm
      exact inv.pending_sub m (List.mem_of_mem_erase hm)
    · intro m hm
      rcases inv.cover m hm with h | h
      · exact Or.inl (List.mem_append_left _ h)
      · by_cases hmn : m = n
        · exact Or.inl (List.mem_append_right _ (by simp [hmn]))
        · exact Or.inr ((List.mem_erase_of_ne hmn).mpr h)
    · intro m hm
      show setStatus st.status n "success" m = some "success"
      unfold setStatus
      by_cases hmn : m = n
      · rw [if_pos hmn]
      · rw [if_neg hmn]
        rcases List.mem_append.mp hm with h | h
        · exact inv.executed_success m h
        · exact absurd (by simpa using h) hmn
    · exact inv.failed_nil
    · exact inv.skipped_nil

/-- With well-formed edges, an acyclic order, no conditions and nothing yet
failed or skipped, some pending node is always ready: the pending node
earliest in a topological order has all dependencies executed. -/
theorem ready_nonempty_of_success (flow : JobFlow) (st : EngineState)
    (topo : List String)
    (hWF : ∀ e ∈ flow.edges, e.source ∈ nodeIds flow)
    (htopo : ∀ e ∈ flow.edges, topo.indexOf e.source < topo.indexOf e.target)
    (hnc : ∀ node ∈ flow.nodes, node.condition = none)
    (inv : SuccessInv flow st) (hpne : st.pending ≠ []) :
    st.pending.filter (canExecute flow st) ≠ [] := by
  obtain ⟨n, hn, hmin⟩ :=
    exists_min_measure (fun m => topo.indexOf m) st.pending hpne
  have hnid := inv.pending_sub n hn
  obtain ⟨node, hfn, hmemnode, _⟩ := findNode_some_of_mem flow n hnid
  have hdeps : ∀ d ∈ depsOf flow n, d ∈ st.executed := by
    intro d hd
    obtain ⟨e, he, hsrc, htgt⟩ := depsOf_edge flow n d hd
    have hidx := htopo e he
    rw [hsrc, htgt] at hidx
    have hdid : d ∈ nodeIds flow := by
      have h2 := hWF e he
      rwa [hsrc] at h2
    rcases inv.cover d hdid with h | h
    · exact h
    · have h3 := hmin d h
      omega
  have hdo := depsOk_true_intro flow st n hdeps inv.failed_nil
  have hsk : st.skipped.contains n = false := by rw [inv.skipped_nil]; rfl
  have hcan := canExecute_true_intro flow st n node hsk hfn hdo
    (hnc node hmemnode)
  exact List.ne_nil_of_mem (List.mem_filter.mpr ⟨hn, hcan⟩)

/-- Main loop theorem for an all-success execution: with well-formed edges,
an acyclic order, no conditions and all node executions succeeding, the
loop drains `pending` completely while keeping the all-success invariant. -/
theorem engineLoop_success (flow : JobFlow) (jobCall : String → NodeCallRes)
    (sched : List String → List String) (topo : List String)
    (hsch : SchedPerm sched)
    (hWF : ∀ e ∈ flow.edges, e.source ∈ nodeIds flow)
    (htopo : ∀ e ∈ flow.edges, topo.indexOf e.source < topo.indexOf e.target)
    (hnc : ∀ node ∈ flow.nodes, node.condition = none)
    (hout : ∀ n ∈ nodeIds flow, nodeOutcome flow jobCall n = .returns "success") :
    ∀ fuel st, SuccessInv flow st → st.pending.length < fuel →
      (engineLoop flow jobCall sched fuel st).pending = [] ∧
      SuccessInv flow (engineLoop flow jobCall sched fuel st) := by
  intro fuel
  induction fuel with
  | zero => intro st _ h; omega
  | succ fuel ih =>
    intro st inv hlen
    rw [engineLoop_succ]
    by_cases hp : st.pending.isEmpty = true
    · rw [if_pos hp]
      exact ⟨List.isEmpty_iff.mp hp, inv⟩
    · rw [if_neg hp]
      have hpne : st.pending ≠ [] := fun h => hp (by rw [h]; rfl)
      have hrne := ready_nonempty_of_success flow st topo hWF htopo hnc inv hpne
      rw [if_neg (fun h => hrne (List.isEmpty_iff.mp h))]
      have inv1 : SuccessInv flow { st with invoked := st.invoked ++
          (st.pending.filter (canExecute flow st)).filter (hasJob flow) } :=
        ⟨inv.pending_sub, inv.cover, inv.executed_success,
         inv.failed_nil, inv.skipped_nil⟩
      have hcsout : ∀ m ∈ sched (st.pending.filter (canExecute flow st)),
          nodeOutcome flow jobCall m = .returns "success" := by
        intro m hm
        have hmr := (hsch _).mem_iff.mp hm
        exact hout m (inv.pending_sub m (List.mem_of_mem_filter hmr))
      have inv2 := processWave_success_inv flow jobCall _ _ inv1 hcsout
      have hcsne : sched (st.pending.filter (canExecute flow st)) ≠ [] := by
        intro h
        apply hrne
        have hperm := hsch (st.pending.filter (canExecute flow st))
        rw [h] at hperm
        exact (List.Perm.nil_eq hperm).symm
      obtain ⟨n0, rest0, hcs0⟩ := List.exists_cons_of_ne_nil hcsne
      have hn0 : n0 ∈ st.pending := by
        have h0 : n0 ∈ sched (st.pending.filter (canExecute flow st)) := by
          rw [hcs0]
          exact List.mem_cons_self n0 rest0
        exact List.mem_of_mem_filter ((hsch _).mem_iff.mp h0)
      have hlt : (processWave flow jobCall { st with invoked := st.invoked ++
          (st.pending.filter (canExecute flow st)).filter (hasJob flow) }
          (sched (st.pending.filter (canExecute flow st)))).pending.length
            < st.pending.length := by
        rw [hcs0]
        exact processWave_pending_length_lt flow jobCall _ n0 rest0 hn0
      exact ih _ inv2 (by omega)

/-- The invariant at the starting state of an execution. -/
theorem initState_successInv (flow : JobFlow) : SuccessInv flow (initState flow) :=
  ⟨fun _ hm => hm, fun _ hm => Or.inr hm,
   fun m hm => absurd hm (List.not_mem_nil m), rfl, rfl⟩

/-- The diamond flow A→B, A→C, B→D, C→D with a job on every node. -/
def diamondFlow : JobFlow :=
  ⟨[⟨"A", some 1, none⟩, ⟨"B", some 2, none⟩, ⟨"C", some 3, none⟩,
    ⟨"D", some 4, none⟩],
   [⟨"A", "B"⟩, ⟨"A", "C"⟩, ⟨"B", "D"⟩, ⟨"C", "D"⟩], "continue", 5⟩

/-- Claim C7: the overall FlowRun status is `failed` when the failed set is
non-empty, else `partial` when the skipped set is non-empty, else
`success`; and an acyclic flow with well-formed edges, no conditions and
every node execution succeeding ends with every node `success` and overall
status `success` (acyclicity is witnessed by a topological order `topo`). -/
theorem overall_status_semantics :
    (∀ (flow : JobFlow) (jobCall : String → NodeCallRes)
        (sched : List String → List String),
        (executeFlow flow jobCall sched).1 =
          (if (executeFlow flow jobCall sched).2.failed ≠ [] then "failed"
           else if (executeFlow flow jobCall sched).2.skipped ≠ [] then "partial"
           else "success")) ∧
    (∀ (flow : JobFlow) (jobCall : String → NodeCallRes)
        (sched : List String → List String) (topo : List String),
        SchedPerm sched →
        (∀ e ∈ flow.edges, e.source ∈ nodeIds flow) →
        (∀ e ∈ flow.edges, topo.indexOf e.source < topo.indexOf e.target) →
        (∀ node ∈ flow.nodes, node.condition = none) →
        (∀ n ∈ nodeIds flow, nodeOutcome flow jobCall n = .returns "success") →
        (executeFlow flow jobCall sched).1 = "success" ∧
        (executeFlow flow jobCall sched).2.failed = [] ∧
        (executeFlow flow jobCall sched).2.skipped = [] ∧
        ∀ n ∈ nodeIds flow,
          (executeFlow flow jobCall sched).2.status n = some "success") := by
  constructor
  · intro flow jobCall sched
    rfl
  · intro flow jobCall sched topo hsch hWF htopo hnc hout
    obtain ⟨hdone, inv2⟩ := engineLoop_success flow jobCall sched topo hsch hWF
      htopo hnc hout (flow.nodes.length + 1) (initState flow)
      (initState_successInv flow) (initState_pending_lt flow)
    refine ⟨?_, inv2.failed_nil, inv2.skipped_nil, ?_⟩
    · show (if (engineLoop flow jobCall sched (flow.nodes.length + 1)
          (initState flow)).failed ≠ [] then "failed"
        else if (engineLoop flow jobCall sched (flow.nodes.length + 1)
          (initState flow)).skipped ≠ [] then "partial"
        else "success") = "success"
      rw [inv2.failed_nil, inv2.skipped_nil]
      simp
    · intro n hn
      rcases inv2.cover n hn with h | h
      · exact inv2.executed_success n h
      · rw [hdone] at h
        exact absurd h (List.not_mem_nil n)

/-- Claim C7 witness: the all-success statement at the diamond flow with
topological order A, B, C, D. -/
theorem overall_status_semantics_witness :
    (executeFlow diamondFlow (fun _ => .returns "success") id).1 = "success" ∧
    (executeFlow diamondFlow (fun _ => .returns "success") id).2.failed = [] ∧
    (executeFlow diamondFlow (fun _ => .returns "success") id).2.skipped = [] ∧
    (executeFlow diamondFlow (fun _ => .returns "success") id).2.status "D"
      = some "success" := by
  have h := overall_status_semantics.2 diamondFlow (fun _ => .returns "success")
    id ["A", "B", "C", "D"] schedPerm_id (by decide) (by decide) (by decide)
    (by decide)
  exact ⟨h.1, h.2.1, h.2.2.1, h.2.2.2 "D" (by decide)⟩
